import Mathlib

/-!
# Character-indexed trie (`src/trie/trie.c`): embedding and verified properties

The C program keeps a tree of `Node` records. Each record holds an `int value`, a
NUL-terminated label string `choices` (or `NULL`) and an array `children` (or `NULL`)
with one child per label.  The embedding below keeps these three fields apart:

* a character is its byte code (`Nat`); a C string is the list of the codes that come
  before its terminator, so a string never contains the code `0` (hypotheses `0 ∉ w`);
* `choices : Option (List Nat)` is `none` for `NULL`;
* `children : Option (List Node)` is `none` for `NULL`, otherwise the allocated array;
* a `Node*` that the lookup loops walk is an `Option Node` (`none` for `NULL`);
  `children + i` past the end of the modelled array is an out-of-bounds read in C and is
  the null pointer here, so the embedding is exact on tries in which every node has as
  many children as labels (`Node.wf`, the invariant of the data model);
* the `Node*` returned by `trie_add_word` is the list of child indices leading to it,
  and `id->value = v` is `set_value`;
* a byte stream is a `List Nat`; an `int` is an `Int`, written as four little-endian
  bytes; lengths and counts are not wrapped, and the codec theorems assume that the
  stream length fits a C `int`;
* `trie_load` returns the decoded tree together with the two declared arena sizes; the
  node arena and the character arena are represented by their cursors only, so the
  embedding is exact when the declared sizes are at least the final cursors (otherwise
  the code writes past an arena); each failing `assert` is an error value;
* the handle `Node**` of the walker is an `Option (Option Node)`: `none` for a null
  handle, `some p` for a handle holding the position `p`.
-/

set_option linter.unusedVariables false
set_option maxRecDepth 100000

/-- The sentinel stored in a node at which no word ends (`#define EMPTY_VALUE -1`). -/
def EMPTY_VALUE : Int := -1

/-- The record `struct Node` of `trie.h`. -/
inductive Node where
  | mk (value : Int) (choices : Option (List Nat)) (children : Option (List Node))

namespace Node

/-- Field `value`. -/
def value : Node → Int
  | mk v _ _ => v

/-- Field `choices`. -/
def choices : Node → Option (List Nat)
  | mk _ c _ => c

/-- Field `children`. -/
def children : Node → Option (List Node)
  | mk _ _ k => k

end Node

/-- The node `_add_root_node` allocates: no labels, no children, value `EMPTY_VALUE`. -/
def _add_root_node : Node := Node.mk EMPTY_VALUE none none

/-- The library call `strchr(s, c)` as an offset into `s`: the first position holding `c`;
the terminator of `s` matches `c = 0`. -/
def strchr : List Nat → Nat → Option Nat
  | [], c => if c = 0 then some 0 else none
  | x :: xs, c => if x = c then some 0 else (strchr xs c).map (· + 1)

/-- The pointer `children + i`. -/
def child_at (children : Option (List Node)) (i : Nat) : Option Node :=
  match children with
  | none => none
  | some ks => ks[i]?

/-- The value `~k` of a C `int`. -/
def complement (k : Nat) : Int := -(k : Int) - 1

/-- The loop of `trie_find_word`; `k` is `ptr - str`. -/
def find_word_loop : Option Node → List Nat → Nat → Int
  | next_pos, [], k =>
    match next_pos with
    | some n => if n.value ≠ EMPTY_VALUE then n.value else complement k
    | none => complement k
  | none, _ :: _, k => complement k
  | some n, c :: cs, k =>
    match n.choices with
    | none => complement k
    | some choices =>
      match strchr choices c with
      | none => complement k
      | some last_branch => find_word_loop (child_at n.children last_branch) cs (k + 1)

/-- The function `trie_find_word(trie, str)`. -/
def trie_find_word (trie : Option Node) (str : List Nat) : Int :=
  find_word_loop trie str 0

/-- The loop of `trie_find_prefixes`: the entries `target[1..counter]` in the order they
are written. -/
def find_prefixes_loop : Option Node → List Nat → List Int
  | none, _ => []
  | some n, [] => [n.value]
  | some n, c :: cs =>
    match n.choices with
    | none => [n.value]
    | some choices =>
      match strchr choices c with
      | none => [n.value]
      | some last_branch =>
        n.value :: find_prefixes_loop (child_at n.children last_branch) cs

/-- The function `trie_find_prefixes(trie, str)`: the initialised part of `target`, that
is `target[0] = counter` followed by the `counter` entries. -/
def trie_find_prefixes (trie : Option Node) (str : List Nat) : List Int :=
  let entries := find_prefixes_loop trie str
  (entries.length : Int) :: entries

/-- The function `_add_choice(node, chr)`: the node after the call and the returned
`insert_position`.  `realloc` keeps the first `insert_position` children. -/
def _add_choice (node : Node) (chr : Nat) : Node × Nat :=
  match node with
  | Node.mk v choices children =>
    let insert_position := match choices with
      | some cs => cs.length
      | none => 0
    let choices1 := match choices with
      | some cs => cs ++ [chr]
      | none => [chr]
    let kept := match children with
      | some ks => ks.take insert_position
      | none => []
    (Node.mk v (some choices1) (some (kept ++ [Node.mk EMPTY_VALUE none none])),
      insert_position)

/-- Store `k` at `node->children[i]`. -/
def set_child (node : Node) (i : Nat) (k : Node) : Node :=
  match node with
  | Node.mk v cs children => Node.mk v cs (children.map (fun ks => ks.set i k))

/-- The function `trie_add_word(trie, str)`: the tree after the call and the returned
node, as the list of child indices from `trie`. -/
def trie_add_word : Node → List Nat → Node × List Nat
  | n, [] => (n, [])
  | n, c :: cs =>
    let found := match n.choices with
      | some choices => strchr choices c
      | none => none
    let r := match found with
      | none => _add_choice n c
      | some i => (n, i)
    match child_at r.1.children r.2 with
    | none => (r.1, [r.2])
    | some child =>
      let r2 := trie_add_word child cs
      (set_child r.1 r.2 r2.1, r.2 :: r2.2)

/-- The node a returned pointer designates. -/
def node_at : Node → List Nat → Option Node
  | n, [] => some n
  | n, i :: p =>
    match child_at n.children i with
    | none => none
    | some k => node_at k p

/-- The assignment `id->value = v` through a pointer returned by `trie_add_word`. -/
def set_value : Node → List Nat → Int → Node
  | Node.mk _ cs ks, [], v => Node.mk v cs ks
  | n, i :: p, v =>
    match child_at n.children i with
    | none => n
    | some k => set_child n i (set_value k p v)

/-- The build loop of `_tmain`: `id = trie_add_word(root, words[i]); id->value = i;`. -/
def build_loop : Node → List (List Nat) → Nat → Node
  | t, [], _ => t
  | t, w :: ws, i =>
    let r := trie_add_word t w
    build_loop (set_value r.1 r.2 (i : Int)) ws (i + 1)

/-- Character codes of a string literal. -/
def cstr (s : String) : List Nat := s.toList.map Char.toNat

/-- The word list of `_tmain`. -/
def test_words : List (List Nat) :=
  ["abstract", "boolean", "break", "byte", "case", "catch", "char", "class",
   "const", "continue", "debugger", "default", "delete", "do", "double", "else",
   "enum", "export", "extends", "false", "finally", "final", "float", "for",
   "function", "goto", "if", "implements", "import", "in", "instanceof", "int",
   "interface", "long", "native", "new", "null", "package", "private", "protected",
   "public", "return", "short", "static", "super", "switch", "synchronized",
   "this", "throw", "throws", "transient", "true", "try", "typeof", "var", "void",
   "volatile", "while", "with",
   "a", "ab", "abst", "234"].map cstr

/-- The trie `_tmain` builds. -/
def test_trie : Node := build_loop _add_root_node test_words 0

/-- The function `node_size(node)`; `node_size_loop len ks` is its loop over
`node->children + i` for `i < len`. -/
def node_size : Node → Nat
  | Node.mk _ none _ => 1
  | Node.mk _ (some cs) none => 1
  | Node.mk _ (some cs) (some ks) => 1 + node_size_loop cs.length ks
where
  /-- Sum of `node_size` over the first `len` children. -/
  node_size_loop : Nat → List Node → Nat
  | 0, _ => 0
  | _ + 1, [] => 0
  | len + 1, k :: ks => node_size k + node_size_loop len ks

/-- The four bytes `memcpy` copies from an `int` (little-endian two's complement). -/
def int_bytes (v : Int) : List Nat :=
  let u := (v % 4294967296).toNat
  [u % 256, u / 256 % 256, u / 65536 % 256, u / 16777216 % 256]

/-- The function `node_save(node, stream)` on a non-null node: the returned offset and the
bytes written at `stream`; `writing = false` is the measuring call `stream = NULL`, which
writes nothing.  `node_save_loop len ks` is the loop over the first `len` children. -/
def node_save : Node → Bool → Nat × List Nat
  | Node.mk value none _, writing =>
    (4 + 1, (if writing then int_bytes value else []) ++ (if writing then [0] else []))
  | Node.mk value (some cs) none, writing =>
    (4 + (cs.length + 1),
      (if writing then int_bytes value else []) ++ (if writing then cs ++ [0] else []))
  | Node.mk value (some cs) (some ks), writing =>
    let r := node_save_loop cs.length ks writing
    (4 + (cs.length + 1) + r.1,
      (if writing then int_bytes value else []) ++ (if writing then cs ++ [0] else []) ++ r.2)
where
  /-- Offsets and bytes of the first `len` children, in order. -/
  node_save_loop : Nat → List Node → Bool → Nat × List Nat
  | 0, _, _ => (0, [])
  | _ + 1, [], _ => (0, [])
  | len + 1, k :: ks, writing =>
    let r1 := node_save k writing
    let r2 := node_save_loop len ks writing
    (r1.1 + r2.1, r1.2 ++ r2.2)

/-- The record `struct SerialTrie` (its unused `root` field left out). -/
structure SerialTrie where
  /-- The byte buffer. -/
  stream : List Nat
  /-- Field `size`. -/
  size : Int
  /-- Field `nodes`. -/
  nodes : Int
  /-- Field `chars`. -/
  chars : Int
deriving DecidableEq

/-- The function `trie_save(root)`. -/
def trie_save (root : Node) : SerialTrie :=
  let nodes : Int := node_size root
  let size0 : Int := (node_save root false).1
  let chars : Int := size0 - nodes * 4
  let size : Int := size0 + 3 * 4
  { stream := int_bytes size ++ int_bytes nodes ++ int_bytes chars ++ (node_save root true).2,
    size := size, nodes := nodes, chars := chars }

/-- Read an `unsigned int` at the start of `stream`; `none` when fewer than four bytes
are left. -/
def read_uint : List Nat → Option Nat
  | b0 :: b1 :: b2 :: b3 :: _ => some (b0 + 256 * b1 + 65536 * b2 + 16777216 * b3)
  | _ => none

/-- Read an `int` at the start of `stream`. -/
def read_int (stream : List Nat) : Option Int :=
  (read_uint stream).map
    (fun (u : Nat) => if u < 2147483648 then (u : Int) else (u : Int) - 4294967296)

/-- The string at the start of `stream` (what `strlen` measures and `memcpy` copies);
`none` when no terminator is left. -/
def cstring_at : List Nat → Option (List Nat)
  | [] => none
  | b :: bs => if b = 0 then some [] else (cstring_at bs).map (b :: ·)

/-- The record `struct LoadPosition`: the two cursors as offsets into the character arena
and the node arena. -/
structure LoadPosition where
  /-- Next free character slot. -/
  chars : Nat
  /-- Next free node slot. -/
  root : Nat
deriving DecidableEq

mutual
/-- The function `node_load(node, position, stream)`: the decoded node, the cursors after
the call and the returned offset; `none` when decoding would read past the end of the
stream.  The first argument bounds the number of nested calls. -/
def node_load : Nat → LoadPosition → List Nat → Option (Node × LoadPosition × Nat)
  | 0, _, _ => none
  | fuel + 1, position, stream =>
    match read_int stream with
    | none => none
    | some value =>
      match cstring_at (stream.drop 4) with
      | none => none
      | some [] => some (Node.mk value none none, position, 4 + 1)
      | some (c :: cs) =>
        let len := (c :: cs).length
        let position1 : LoadPosition :=
          { chars := position.chars + (len + 1), root := position.root + len }
        match node_load_loop fuel len position1 (stream.drop (4 + (len + 1))) with
        | none => none
        | some (ks, position2, off) =>
          some (Node.mk value (some (c :: cs)) (some ks), position2, 4 + (len + 1) + off)
/-- The loop of `node_load` over the `len` children. -/
def node_load_loop : Nat → Nat → LoadPosition → List Nat →
    Option (List Node × LoadPosition × Nat)
  | _, 0, position, _ => some ([], position, 0)
  | 0, _ + 1, _, _ => none
  | fuel + 1, i + 1, position, stream =>
    match node_load fuel position stream with
    | none => none
    | some (child, position1, off1) =>
      match node_load_loop fuel i position1 (stream.drop off1) with
      | none => none
      | some (ks, position2, off2) => some (child :: ks, position2, off1 + off2)
end

/-- The record `struct FrozenTrie`: the decoded root and the two declared arena sizes. -/
structure FrozenTrie where
  /-- The root node, first slot of the node arena. -/
  root : Node
  /-- Field `node_count`. -/
  node_count : Nat
  /-- Field `char_count`. -/
  char_count : Nat

/-- The ways `trie_load` stops without returning a trie. -/
inductive LoadError where
  | over_read
  | size_check
  | char_check
  | node_check
deriving DecidableEq

/-- The function `trie_load(stream)`; each `assert` that fails is an error.  The two
arenas, which the code allocates from the declared `node_count` and `char_count` before
decoding, are not represented: when a declared count is smaller than the final cursor,
`node_load` has written past the end of that arena before any `assert` is reached, which
is undefined behaviour in C.  The embedding is exact when the declared counts are at least
the final cursors, as they are in the streams `trie_save` writes. -/
def trie_load (stream : List Nat) : Except LoadError FrozenTrie :=
  match read_int stream, read_uint (stream.drop 4), read_uint (stream.drop 8) with
  | some size, some node_count, some char_count =>
    match node_load stream.length { chars := 0, root := 1 } (stream.drop 12) with
    | none => Except.error LoadError.over_read
    | some (root, lp, off) =>
      if size - (off : Int) ≠ 12 then Except.error LoadError.size_check
      else if ¬ (char_count ≥ lp.chars) then Except.error LoadError.char_check
      else if node_count ≠ lp.root then Except.error LoadError.node_check
      else Except.ok { root := root, node_count := node_count, char_count := char_count }
  | _, _, _ => Except.error LoadError.over_read

/-- The read `a[i]` of an `int` array at an `int` index; `none` outside the array. -/
def int_index (a : List Int) (i : Int) : Option Int :=
  if 0 ≤ i then a[i.toNat]? else none

/-- The loop of `trie_find_splits`: the triples written to `results`, in order. -/
def find_splits_loop (prefixes suffixes : List Int) (l p0 s0 : Int) :
    List (Int × Int × Int) :=
  (List.range (p0 - (l - s0 + 1)).toNat).filterMap (fun (j : Nat) =>
    let pi : Int := (l - s0 + 1) + (j : Int)
    let si : Int := l - pi
    match int_index prefixes (pi + 1), int_index suffixes (si + 1) with
    | some p, some s => if p ≠ -1 ∧ s ≠ -1 then some (pi, p, s) else none
    | _, _ => none)

/-- The function `trie_find_splits(prefix_root, suffix_root, key)`: `results[0] = s`
followed by the `s` triples. -/
def trie_find_splits (prefix_root suffix_root : Option Node) (key : List Nat) : List Int :=
  let l : Int := key.length
  let prefixes := trie_find_prefixes prefix_root key
  let key2 := key.reverse
  let suffixes := trie_find_prefixes suffix_root key2
  let p0 := prefixes.headD 0
  let s0 := suffixes.headD 0
  let found := find_splits_loop prefixes suffixes l p0 s0
  (found.length : Int) :: found.flatMap (fun t => [t.1, t.2.1, t.2.2])

/-- A trie in which a caller stored the negative payload `-3` for the word `"a"`:
`id = trie_add_word(root, "a"); id->value = -3;`. -/
def negative_payload_trie : Node :=
  set_value (trie_add_word _add_root_node (cstr "a")).1
    (trie_add_word _add_root_node (cstr "a")).2 (-3)

/-- The pairs `(words[i], i)` of the build loop of `_tmain`. -/
def test_ops : List (List Nat × Int) :=
  test_words.zip ((List.range test_words.length).map (fun (i : Nat) => (i : Int)))

/-- The pairs of a two-word build: `"ab"` with value 0 and `"ac"` with value 1. -/
def small_ops : List (List Nat × Int) := [(cstr "ab", 0), (cstr "ac", 1)]

/-- The function `contains_char(ptr_node, next)`: the returned `int` and the handle after
the call.  The handle `ptr_node` is `none` for `NULL`; the position `*ptr_node` it holds
is a `Node*`.  `strchr` converts `next` to a `char`.  Reading `node->choices` through a
null position is undefined in C; the embedding returns 0 there. -/
def contains_char (ptr_node : Option (Option Node)) (next : Int) :
    Int × Option (Option Node) :=
  match ptr_node with
  | none => (0, none)
  | some none => (0, some none)
  | some (some node) =>
    match node.choices with
    | none => (0, some (some node))
    | some choices =>
      match strchr choices (next % 256).toNat with
      | none => (0, some (some node))
      | some last_branch => (1, some (child_at node.children last_branch))

/-- The function `initialize_state(s)`: a fresh handle holding the position `s`. -/
def initialize_state (s : Option Node) : Option (Option Node) := some s

/-- The function `c_is_leaf(ptr)`; reading through a null position is undefined in C and
gives 0 here. -/
def c_is_leaf (ptr : Option (Option Node)) : Int :=
  match ptr with
  | some (some node) => if node.value = EMPTY_VALUE then 0 else 1
  | _ => 0

/-- A caller of the walker: one call `contains_char(state, c)` per character of the
string, in order, on the same handle; the returned values and the final handle. -/
def walker_run : Option (Option Node) → List Nat → List Int × Option (Option Node)
  | state, [] => ([], state)
  | state, c :: cs =>
    let r := contains_char state (c : Int)
    let rest := walker_run r.2 cs
    (r.1 :: rest.1, rest.2)

/-- The capacity `res_len` for which `trie_find_splits` sizes its result buffer
(`results` has room for `res_len` triples after `results[0]`). -/
def find_splits_res_len (prefix_root suffix_root : Option Node) (key : List Nat) : Int :=
  let l : Int := key.length
  let p0 := (trie_find_prefixes prefix_root key).headD 0
  let s0 := (trie_find_prefixes suffix_root key.reverse).headD 0
  let res_len := p0 - (l - s0 + 1)
  if res_len ≤ 0 then 0 else res_len

/-- Overwrite the `int` at byte offset `offset` of a stream
(`memcpy(stream + offset, &v, sizeof(int))`), as a caller corrupting a header field
does. -/
def write_int (stream : List Nat) (offset : Nat) (v : Int) : List Nat :=
  stream.take offset ++ int_bytes v ++ stream.drop (offset + 4)

/-- A one-word trie: `id = trie_add_word(root, "a"); id->value = 0;`. -/
def one_word_trie : Node :=
  set_value (trie_add_word _add_root_node (cstr "a")).1
    (trie_add_word _add_root_node (cstr "a")).2 0

/-! ## Specification-side notions -/

mutual
/-- Every node of the tree satisfies `p`. -/
def Node.all (p : Node → Bool) : Node → Bool
  | Node.mk v cs none => p (Node.mk v cs none)
  | Node.mk v cs (some ks) => p (Node.mk v cs (some ks)) && Node.all_list p ks
/-- Every node of every tree of the list satisfies `p`. -/
def Node.all_list (p : Node → Bool) : List Node → Bool
  | [] => true
  | k :: ks => Node.all p k && Node.all_list p ks
end

/-- A node has as many children as edge labels. -/
def node_ok (n : Node) : Bool :=
  match n.choices with
  | none => true
  | some cs => cs.length == (n.children.getD []).length

/-- Data-model invariant: every node has as many children as edge labels. -/
def Node.wf (t : Node) : Bool := Node.all node_ok t

/-- Every stored value is non-negative or `EMPTY_VALUE`. -/
def values_ok (t : Node) : Bool := Node.all (fun n => decide (EMPTY_VALUE ≤ n.value)) t

/-- The child reached from `n` by the edge labelled `c`, if `n` has such an edge. -/
def Node.edge (n : Node) (c : Nat) : Option Node :=
  match n.choices with
  | none => none
  | some cs => if c ∈ cs then child_at n.children (cs.indexOf c) else none

/-- The node reached from `n` by following the characters of a string, if every
character can be followed. -/
def follow : Node → List Nat → Option Node
  | n, [] => some n
  | n, c :: cs =>
    match n.edge c with
    | none => none
    | some k => follow k cs

/-- The value of the node reached by a string. -/
def lookup (t : Node) (u : List Nat) : Option Int := (follow t u).map Node.value

/-- The number `m` is the length of the longest prefix of `w` that can be followed
from `t`. -/
def is_longest_followable (t : Node) (w : List Nat) (m : Nat) : Prop :=
  m ≤ w.length ∧ (follow t (w.take m)).isSome = true ∧
    ∀ k, m < k → k ≤ w.length → follow t (w.take k) = none

/-- Number of leading characters of `w` that can be followed from `t`. -/
def walk_len : Node → List Nat → Nat
  | _, [] => 0
  | n, c :: cs =>
    match n.edge c with
    | none => 0
    | some k => 1 + walk_len k cs

/-- The pointer `p` (a list of child indices) designates the node that the string `w`
reaches from `t`: each index is the position of the corresponding character among the
labels. -/
inductive IsPath : Node → List Nat → List Nat → Prop where
  | nil (t : Node) : IsPath t [] []
  | cons (t : Node) (c : Nat) (w : List Nat) (p : List Nat) (cs : List Nat) (k : Node) :
      t.choices = some cs → c ∈ cs → child_at t.children (cs.indexOf c) = some k →
      IsPath k w p → IsPath t (c :: w) (cs.indexOf c :: p)

/-- A node in the form `node_load` produces: labels and children both absent, or a
non-empty string of non-zero byte labels with one child each; the value is a C `int`. -/
def canon_node (n : Node) : Bool :=
  decide (-2147483648 ≤ n.value) && decide (n.value < 2147483648) &&
  match n.choices, n.children with
  | none, none => true
  | some cs, some ks =>
    !cs.isEmpty && cs.length == ks.length && cs.all (fun c => decide (0 < c) && decide (c < 256))
  | _, _ => false

/-- Every node of the tree is in the form `node_load` produces. -/
def canonical (t : Node) : Bool := Node.all canon_node t

/-- A trie built from `t` by `id = trie_add_word(root, w); id->value = v;` for each pair
`(w, v)` of the list, in order. -/
def build_from : Node → List (List Nat × Int) → Node
  | t, [] => t
  | t, op :: ops =>
    let r := trie_add_word t op.1
    build_from (set_value r.1 r.2 op.2) ops

/-- A trie in which the empty word carries the value 5 and `"a"` the value 0:
`id = trie_add_word(root, ""); id->value = 5; id = trie_add_word(root, "a");
id->value = 0;`. -/
def empty_word_trie : Node := build_from _add_root_node [([], 5), (cstr "a", 0)]

mutual
/-- The encoded byte length of a node as the format states it: a node with `k` edges
takes `4 + (k + 1)` bytes plus the encoded lengths of its children. -/
def enc : Node → Nat
  | Node.mk _ cs none => 4 + ((cs.getD []).length + 1)
  | Node.mk _ cs (some ks) => 4 + ((cs.getD []).length + 1) + enc_list ks
/-- Sum of the encoded lengths of a list of nodes. -/
def enc_list : List Node → Nat
  | [] => 0
  | k :: ks => enc k + enc_list ks
end

mutual
/-- The number of edge-label bytes and terminator bytes of a tree: `k + 1` for every
node with `k` edges. -/
def label_bytes : Node → Nat
  | Node.mk _ cs none => (cs.getD []).length + 1
  | Node.mk _ cs (some ks) => (cs.getD []).length + 1 + label_bytes_list ks
/-- Sum of `label_bytes` over a list of nodes. -/
def label_bytes_list : List Node → Nat
  | [] => 0
  | k :: ks => label_bytes k + label_bytes_list ks
end

/-- Well-formedness of one node as the data model states it: label string and child
array both absent, or a non-empty string of pairwise distinct labels with exactly one
child per label. -/
def node_inv (n : Node) : Bool :=
  match n.choices, n.children with
  | none, none => true
  | some cs, some ks => cs.length == ks.length && decide cs.Nodup && !cs.isEmpty
  | _, _ => false

/-- A sequence of calls `trie_add_word(root, w)`, one per word of the list, in order. -/
def add_words : Node → List (List Nat) → Node
  | t, [] => t
  | t, w :: ws => add_words (trie_add_word t w).1 ws

/-! ## Basic facts -/

theorem strchr_eq (cs : List Nat) (c : Nat) (hc : c ≠ 0) :
    strchr cs c = if c ∈ cs then some (cs.indexOf c) else none := by
  induction cs with
  | nil => simp [strchr, hc]
  | cons x xs ih =>
    by_cases hx : x = c
    · subst hx; simp [strchr]
    · have hx2 : c ≠ x := fun h => hx h.symm
      simp only [strchr, hx, if_false, ih, List.mem_cons, hx2, false_or]
      by_cases hm : c ∈ xs
      · simp [hm, List.indexOf_cons_ne _ hx]
      · simp [hm]

theorem all_self (p : Node → Bool) (t : Node) (h : Node.all p t = true) : p t = true := by
  cases t with
  | mk v cs ks =>
    cases ks with
    | none => simpa [Node.all] using h
    | some ks => simp [Node.all] at h; exact h.1

theorem all_list_get (p : Node → Bool) (ks : List Node) (h : Node.all_list p ks = true)
    (i : Nat) (k : Node) (hk : ks[i]? = some k) : Node.all p k = true := by
  induction ks generalizing i with
  | nil => simp at hk
  | cons x xs ih =>
    simp [Node.all_list] at h
    cases i with
    | zero => simp at hk; subst hk; exact h.1
    | succ i => simp at hk; exact ih h.2 i hk

theorem all_child (p : Node → Bool) (t : Node) (h : Node.all p t = true) (i : Nat) (k : Node)
    (hk : child_at t.children i = some k) : Node.all p k = true := by
  cases t with
  | mk v cs ks =>
    cases ks with
    | none => simp [child_at, Node.children] at hk
    | some ks =>
      simp [Node.all] at h
      simp [child_at, Node.children] at hk
      exact all_list_get p ks h.2 i k hk

theorem all_edge (p : Node → Bool) (t : Node) (h : Node.all p t = true) (c : Nat) (k : Node)
    (hk : t.edge c = some k) : Node.all p k = true := by
  unfold Node.edge at hk
  cases hcs : t.choices with
  | none => simp [hcs] at hk
  | some cs =>
    simp only [hcs] at hk
    by_cases hm : c ∈ cs
    · simp only [hm, if_true] at hk
      exact all_child p t h _ k hk
    · simp [hm] at hk

theorem all_follow (p : Node → Bool) (t : Node) (h : Node.all p t = true) (u : List Nat)
    (n : Node) (hn : follow t u = some n) : Node.all p n = true := by
  induction u generalizing t with
  | nil => simp [follow] at hn; subst hn; exact h
  | cons c cs ih =>
    simp only [follow] at hn
    cases he : t.edge c with
    | none => simp [he] at hn
    | some k =>
      simp only [he] at hn
      exact ih k (all_edge p t h c k he) hn

/-- In a well-formed node every label leads to a child. -/
theorem wf_edge_some (t : Node) (h : t.wf = true) (cs : List Nat) (hcs : t.choices = some cs)
    (c : Nat) (hm : c ∈ cs) : ∃ k, t.edge c = some k := by
  have hok := all_self node_ok t h
  unfold node_ok at hok
  simp only [hcs, beq_iff_eq] at hok
  have hlt : cs.indexOf c < cs.length := List.indexOf_lt_length.mpr hm
  cases t with
  | mk v cs2 ks =>
    simp only [Node.choices] at hcs
    subst hcs
    cases ks with
    | none =>
      simp [Node.children] at hok
      simp [hok] at hm
    | some ks =>
      simp [Node.children] at hok
      have hlt2 : cs.indexOf c < ks.length := by omega
      refine ⟨ks.get ⟨_, hlt2⟩, ?_⟩
      simp [Node.edge, Node.choices, Node.children, hm, child_at, List.getElem?_eq_getElem hlt2]

/-- What one iteration of the lookup loops does at a well-formed node. -/
theorem code_step (t : Node) (h : t.wf = true) (c : Nat) (hc : c ≠ 0) :
    (t.choices = none ∧ t.edge c = none) ∨
    (∃ cs, t.choices = some cs ∧ strchr cs c = none ∧ t.edge c = none) ∨
    (∃ cs i k, t.choices = some cs ∧ strchr cs c = some i ∧
      child_at t.children i = some k ∧ t.edge c = some k) := by
  cases hcs : t.choices with
  | none => left; simp [Node.edge, hcs]
  | some cs =>
    right
    by_cases hm : c ∈ cs
    · right
      obtain ⟨k, hk⟩ := wf_edge_some t h cs hcs c hm
      refine ⟨cs, cs.indexOf c, k, rfl, ?_, ?_, hk⟩
      · simp [strchr_eq cs c hc, hm]
      · simpa [Node.edge, hcs, hm] using hk
    · left
      refine ⟨cs, rfl, ?_, ?_⟩
      · simp [strchr_eq cs c hc, hm]
      · simp [Node.edge, hcs, hm]

theorem wf_edge (t : Node) (h : t.wf = true) (c : Nat) (k : Node) (hk : t.edge c = some k) :
    k.wf = true := all_edge node_ok t h c k hk

theorem find_word_loop_spec (w : List Nat) (hw : 0 ∉ w) :
    ∀ (t : Node), t.wf = true → ∀ k : Nat,
    find_word_loop (some t) w k =
      match follow t w with
      | some n => if n.value ≠ EMPTY_VALUE then n.value else complement (k + w.length)
      | none => complement (k + walk_len t w) := by
  induction w with
  | nil => intro t _ k; simp [find_word_loop, follow]
  | cons c cs ih =>
    intro t h k
    have hc : c ≠ 0 := fun e => hw (by simp [e])
    have hcs : 0 ∉ cs := fun e => hw (by simp [e])
    rcases code_step t h c hc with ⟨h1, h2⟩ | ⟨chs, h1, h2, h3⟩ | ⟨chs, i, kid, h1, h2, h3, h4⟩
    · simp [find_word_loop, follow, walk_len, h1, h2]
    · simp [find_word_loop, follow, walk_len, h1, h2, h3]
    · simp only [find_word_loop, follow, walk_len, h1, h2, h3, h4]
      rw [ih hcs kid (wf_edge t h c kid h4) (k + 1)]
      simp only [List.length_cons]
      have e1 : k + 1 + cs.length = k + (cs.length + 1) := by omega
      have e2 : k + 1 + walk_len kid cs = k + (1 + walk_len kid cs) := by omega
      rw [e1, e2]

theorem find_prefixes_loop_length (w : List Nat) (hw : 0 ∉ w) :
    ∀ (t : Node), t.wf = true →
    (find_prefixes_loop (some t) w).length = walk_len t w + 1 := by
  induction w with
  | nil => intro t _; simp [find_prefixes_loop, walk_len]
  | cons c cs ih =>
    intro t h
    have hc : c ≠ 0 := fun e => hw (by simp [e])
    have hcs : 0 ∉ cs := fun e => hw (by simp [e])
    rcases code_step t h c hc with ⟨h1, h2⟩ | ⟨chs, h1, h2, h3⟩ | ⟨chs, i, kid, h1, h2, h3, h4⟩
    · simp [find_prefixes_loop, walk_len, h1, h2]
    · simp [find_prefixes_loop, walk_len, h1, h2, h3]
    · simp only [find_prefixes_loop, walk_len, h1, h2, h3, h4, List.length_cons]
      rw [ih hcs kid (wf_edge t h c kid h4)]
      omega

theorem find_prefixes_loop_get (w : List Nat) (hw : 0 ∉ w) :
    ∀ (t : Node), t.wf = true → ∀ j : Nat, j ≤ walk_len t w →
    (find_prefixes_loop (some t) w)[j]? = lookup t (w.take j) := by
  induction w with
  | nil =>
    intro t _ j hj
    simp [walk_len] at hj
    subst hj
    simp [find_prefixes_loop, lookup, follow]
  | cons c cs ih =>
    intro t h j hj
    have hc : c ≠ 0 := fun e => hw (by simp [e])
    have hcs : 0 ∉ cs := fun e => hw (by simp [e])
    rcases code_step t h c hc with ⟨h1, h2⟩ | ⟨chs, h1, h2, h3⟩ | ⟨chs, i, kid, h1, h2, h3, h4⟩
    · simp [walk_len, h2] at hj
      subst hj
      simp [find_prefixes_loop, h1, lookup, follow]
    · simp [walk_len, h3] at hj
      subst hj
      simp [find_prefixes_loop, h1, h2, lookup, follow]
    · simp only [find_prefixes_loop, h1, h2, h3]
      cases j with
      | zero => simp [lookup, follow]
      | succ j =>
        simp only [walk_len, h4] at hj
        simp only [List.getElem?_cons_succ, List.take_succ_cons, lookup, follow, h4]
        exact ih hcs kid (wf_edge t h c kid h4) j (by omega)

theorem walk_len_le (w : List Nat) : ∀ t : Node, walk_len t w ≤ w.length := by
  induction w with
  | nil => intro t; simp [walk_len]
  | cons c cs ih =>
    intro t
    simp only [walk_len, List.length_cons]
    cases he : t.edge c with
    | none => simp
    | some k => simp only; have := ih k; omega

theorem follow_take_isSome (w : List Nat) :
    ∀ (t : Node) (m : Nat), m ≤ w.length →
    ((follow t (w.take m)).isSome = true ↔ m ≤ walk_len t w) := by
  induction w with
  | nil => intro t m hm; simp at hm; subst hm; simp [follow, walk_len]
  | cons c cs ih =>
    intro t m hm
    cases m with
    | zero => simp [follow]
    | succ m =>
      simp only [List.take_succ_cons, follow, walk_len]
      cases he : t.edge c with
      | none => simp
      | some k =>
        simp only
        rw [ih k m (by simpa using hm)]
        omega

theorem walk_len_longest (t : Node) (w : List Nat) :
    is_longest_followable t w (walk_len t w) := by
  refine ⟨walk_len_le w t, ?_, ?_⟩
  · exact (follow_take_isSome w t _ (walk_len_le w t)).mpr (le_refl _)
  · intro k hk hkl
    have := follow_take_isSome w t k hkl
    cases hf : follow t (w.take k) with
    | none => rfl
    | some n => rw [hf] at this; simp at this; omega

theorem longest_unique (t : Node) (w : List Nat) (m : Nat)
    (h : is_longest_followable t w m) : m = walk_len t w := by
  obtain ⟨h1, h2, h3⟩ := h
  have a := (follow_take_isSome w t m h1).mp h2
  by_contra hne
  have hlt : m < walk_len t w := by omega
  have := h3 (walk_len t w) hlt (walk_len_le w t)
  have b := (follow_take_isSome w t _ (walk_len_le w t)).mpr (le_refl _)
  rw [this] at b
  simp at b

theorem follow_isSome_iff (t : Node) (w : List Nat) :
    (follow t w).isSome = true ↔ walk_len t w = w.length := by
  have := follow_take_isSome w t w.length (le_refl _)
  rw [List.take_length] at this
  rw [this]
  have := walk_len_le w t
  omega

theorem find_word_cases (t : Node) (h : t.wf = true) (w : List Nat) (hw : 0 ∉ w) :
    (∃ n, follow t w = some n ∧ n.value ≠ EMPTY_VALUE ∧
      trie_find_word (some t) w = n.value) ∨
    ((∀ n, follow t w = some n → n.value = EMPTY_VALUE) ∧
      trie_find_word (some t) w = complement (walk_len t w)) := by
  have hspec := find_word_loop_spec w hw t h 0
  unfold trie_find_word
  cases hf : follow t w with
  | none =>
    right
    rw [hf] at hspec
    simp only [Nat.zero_add] at hspec
    exact ⟨fun n hn => by simp at hn, hspec⟩
  | some n =>
    rw [hf] at hspec
    simp only [Nat.zero_add] at hspec
    have hlen : walk_len t w = w.length := (follow_isSome_iff t w).mp (by simp [hf])
    by_cases hv : n.value = EMPTY_VALUE
    · right
      refine ⟨fun n2 hn2 => ?_, ?_⟩
      · simp at hn2; subst hn2; exact hv
      · rw [hspec, hlen]; simp [hv]
    · left
      exact ⟨n, rfl, hv, by rw [hspec]; simp [hv]⟩

theorem complement_neg (k : Nat) : complement k < 0 := by
  unfold complement; omega

theorem values_ok_follow (t : Node) (hv : values_ok t = true) (u : List Nat) (n : Node)
    (hn : follow t u = some n) : EMPTY_VALUE ≤ n.value := by
  have h1 := all_follow _ t hv u n hn
  have h2 := all_self _ n h1
  simpa using h2

/-- A non-negative result of `trie_find_word` is the value of the node the word reaches. -/
theorem find_word_nonneg_iff (t : Node) (h : t.wf = true) (w : List Nat) (hw : 0 ∉ w)
    (v : Int) (hv : 0 ≤ v) :
    trie_find_word (some t) w = v ↔ lookup t w = some v := by
  unfold lookup
  rcases find_word_cases t h w hw with ⟨n, h1, h2, h3⟩ | ⟨h1, h2⟩
  · rw [h1, h3]; simp
  · constructor
    · intro e
      have := complement_neg (walk_len t w)
      omega
    · intro e
      cases hf : follow t w with
      | none => rw [hf] at e; simp at e
      | some n =>
        rw [hf] at e
        simp at e
        have := h1 n hf
        unfold EMPTY_VALUE at this
        omega

/-- C4. `trie_find_word` contract: on a trie whose values are non-negative or `EMPTY`, the
result is the non-negative value `v` exactly when the whole word can be followed from the
root to a node of value `v ≠ EMPTY`; otherwise the result is negative and its complement
is the length of the longest prefix that can be followed, which is the length of the word
when the word reaches a node without a value. -/
theorem find_word_contract (t : Node) (hwf : t.wf = true) (hval : values_ok t = true)
    (w : List Nat) (hw : 0 ∉ w) :
    (∀ v : Int, (trie_find_word (some t) w = v ∧ 0 ≤ v) ↔
      (∃ n, follow t w = some n ∧ n.value = v ∧ v ≠ EMPTY_VALUE)) ∧
    ((¬ ∃ n, follow t w = some n ∧ n.value ≠ EMPTY_VALUE) →
      trie_find_word (some t) w < 0 ∧
      ∃ m : Nat, -(trie_find_word (some t) w) - 1 = (m : Int) ∧
        is_longest_followable t w m ∧
        ((follow t w).isSome = true → m = w.length)) := by
  constructor
  · intro v
    constructor
    · rintro ⟨e, hv⟩
      have := (find_word_nonneg_iff t hwf w hw v hv).mp e
      unfold lookup at this
      cases hf : follow t w with
      | none => rw [hf] at this; simp at this
      | some n =>
        rw [hf] at this
        simp at this
        refine ⟨n, rfl, this, ?_⟩
        unfold EMPTY_VALUE; omega
    · rintro ⟨n, hn, hnv, hne⟩
      have hge := values_ok_follow t hval w n hn
      have h0 : 0 ≤ v := by
        unfold EMPTY_VALUE at hge hne; omega
      refine ⟨(find_word_nonneg_iff t hwf w hw v h0).mpr ?_, h0⟩
      simp [lookup, hn, hnv]
  · intro hno
    rcases find_word_cases t hwf w hw with ⟨n, h1, h2, h3⟩ | ⟨h1, h2⟩
    · exact absurd ⟨n, h1, h2⟩ hno
    · rw [h2]
      refine ⟨complement_neg _, walk_len t w, by unfold complement; omega,
        walk_len_longest t w, fun hs => (follow_isSome_iff t w).mp hs⟩

/-- C4, on the trie of `_tmain`: the five `assert_not_found` cases, and the contract
applied to `"abs"`. -/
theorem find_word_contract_witness :
    (trie_find_word (some test_trie) (cstr "abs") = complement 3 ∧
     trie_find_word (some test_trie) (cstr "apple") = complement 1 ∧
     trie_find_word (some test_trie) (cstr "breaks") = complement 5 ∧
     trie_find_word (some test_trie) (cstr "finall") = complement 6 ∧
     trie_find_word (some test_trie) (cstr "123") = complement 0) ∧
    (test_trie.wf = true ∧ values_ok test_trie = true ∧ 0 ∉ cstr "abs") ∧
    ((∀ v : Int, (trie_find_word (some test_trie) (cstr "abs") = v ∧ 0 ≤ v) ↔
      (∃ n, follow test_trie (cstr "abs") = some n ∧ n.value = v ∧ v ≠ EMPTY_VALUE)) ∧
    ((¬ ∃ n, follow test_trie (cstr "abs") = some n ∧ n.value ≠ EMPTY_VALUE) →
      trie_find_word (some test_trie) (cstr "abs") < 0 ∧
      ∃ m : Nat, -(trie_find_word (some test_trie) (cstr "abs")) - 1 = (m : Int) ∧
        is_longest_followable test_trie (cstr "abs") m ∧
        ((follow test_trie (cstr "abs")).isSome = true → m = (cstr "abs").length))) :=
  ⟨by decide!, ⟨by decide!, by decide!, by decide⟩,
    find_word_contract test_trie (by decide!) (by decide!) (cstr "abs") (by decide)⟩

theorem not_mem_take (s : List Nat) (j : Nat) (hs : 0 ∉ s) : 0 ∉ s.take j :=
  fun h => hs (List.mem_of_mem_take h)

theorem prefixes_count (t : Node) (h : t.wf = true) (s : List Nat) (hs : 0 ∉ s) :
    trie_find_prefixes (some t) s =
      ((walk_len t s + 1 : Nat) : Int) :: find_prefixes_loop (some t) s := by
  unfold trie_find_prefixes
  simp only [find_prefixes_loop_length s hs t h]

/-- C6, as amended. For every trie and string, entry `j` of the trace returned by
`trie_find_prefixes` (`target[j+1]`, for `j` below the count `target[0]`) is the value of
the node reached from the root by the first `j` characters; when the stored values are
non-negative or `EMPTY`, the entry is non-`EMPTY` exactly when `trie_find_word` succeeds
on that prefix, and then `trie_find_word` returns the entry. -/
theorem prefix_trace_meaning (t : Node) (hwf : t.wf = true) (s : List Nat) (hs : 0 ∉ s)
    (j : Nat) (hj : (j : Int) < (trie_find_prefixes (some t) s).headD 0) :
    ∃ n, follow t (s.take j) = some n ∧
      (trie_find_prefixes (some t) s)[j + 1]? = some n.value ∧
      (values_ok t = true →
        ((n.value ≠ EMPTY_VALUE ↔ 0 ≤ trie_find_word (some t) (s.take j)) ∧
         (n.value ≠ EMPTY_VALUE → trie_find_word (some t) (s.take j) = n.value))) := by
  rw [prefixes_count t hwf s hs] at hj ⊢
  simp only [List.headD_cons] at hj
  have hjw : j ≤ walk_len t s := by omega
  have hjl : j ≤ s.length := le_trans hjw (walk_len_le s t)
  have hsome := (follow_take_isSome s t j hjl).mpr hjw
  cases hf : follow t (s.take j) with
  | none => rw [hf] at hsome; simp at hsome
  | some n =>
    refine ⟨n, rfl, ?_, ?_⟩
    · simp only [List.getElem?_cons_succ]
      rw [find_prefixes_loop_get s hs t hwf j hjw]
      simp [lookup, hf]
    · intro hval
      have hge := values_ok_follow t hval _ n hf
      have hs2 := not_mem_take s j hs
      rcases find_word_cases t hwf (s.take j) hs2 with ⟨n2, h1, h2, h3⟩ | ⟨h1, h2⟩
      · rw [hf] at h1
        simp at h1
        subst h1
        rw [h3]
        unfold EMPTY_VALUE at hge h2 ⊢
        exact ⟨⟨fun _ => by omega, fun _ => h2⟩, fun _ => rfl⟩
      · have he := h1 n hf
        have hneg := complement_neg (walk_len t (s.take j))
        rw [h2]
        exact ⟨⟨fun hne => absurd he hne, fun hp => by omega⟩, fun hne => absurd he hne⟩

/-- C6, on the trie of `_tmain`: the trace of `"abstracted"`, and the theorem applied to
its entry 2 (the prefix `"ab"`). -/
theorem prefix_trace_meaning_witness :
    trie_find_prefixes (some test_trie) (cstr "abstracted") =
      [9, -1, 59, 60, -1, 61, -1, -1, -1, 0] ∧
    (test_trie.wf = true ∧ 0 ∉ cstr "abstracted" ∧
      ((2 : Nat) : Int) < (trie_find_prefixes (some test_trie) (cstr "abstracted")).headD 0 ∧
      values_ok test_trie = true) ∧
    ∃ n, follow test_trie ((cstr "abstracted").take 2) = some n ∧
      (trie_find_prefixes (some test_trie) (cstr "abstracted"))[2 + 1]? = some n.value ∧
      (values_ok test_trie = true →
        ((n.value ≠ EMPTY_VALUE ↔
            0 ≤ trie_find_word (some test_trie) ((cstr "abstracted").take 2)) ∧
         (n.value ≠ EMPTY_VALUE →
            trie_find_word (some test_trie) ((cstr "abstracted").take 2) = n.value))) :=
  ⟨by decide!, ⟨by decide!, by decide, by decide!, by decide!⟩,
    prefix_trace_meaning test_trie (by decide!) (cstr "abstracted") (by decide) 2
      (by decide!)⟩

/-- C6 as stated fails on a trie holding a negative payload: in `negative_payload_trie`
entry 1 of the trace of `"a"` is `-3`, which is not `EMPTY`, while `trie_find_word` on
`"a"` returns the negative number `-3`, which reports a failure. -/
theorem prefix_trace_meaning_counterexample :
    negative_payload_trie.wf = true ∧
    trie_find_prefixes (some negative_payload_trie) (cstr "a") = [2, -1, -3] ∧
    ¬ (((trie_find_prefixes (some negative_payload_trie) (cstr "a"))[1 + 1]? ≠
          some EMPTY_VALUE) ↔
        0 ≤ trie_find_word (some negative_payload_trie) ((cstr "a").take 1)) := by
  decide!

/-- C7, as amended. For every trie and string, the count `target[0]` returned by
`trie_find_prefixes` is `1 + m`, with `m` the length of the longest prefix that can be
followed from the root, and the returned array holds exactly that many entries; when
`trie_find_word` succeeds on the string, `m` is the length of the string; when the stored
values are non-negative or `EMPTY` and `trie_find_word` fails, the matched length it
reports is `m`. -/
theorem prefix_trace_length (t : Node) (hwf : t.wf = true) (s : List Nat) (hs : 0 ∉ s) :
    ∃ m : Nat, is_longest_followable t s m ∧
      (trie_find_prefixes (some t) s)[0]? = some (1 + (m : Int)) ∧
      (trie_find_prefixes (some t) s).length = 1 + (1 + m) ∧
      (0 ≤ trie_find_word (some t) s → m = s.length) ∧
      (values_ok t = true → trie_find_word (some t) s < 0 →
        -(trie_find_word (some t) s) - 1 = (m : Int)) := by
  refine ⟨walk_len t s, walk_len_longest t s, ?_, ?_, ?_, ?_⟩
  · rw [prefixes_count t hwf s hs]
    simp only [List.getElem?_cons_zero, Option.some.injEq]
    push_cast
    omega
  · rw [prefixes_count t hwf s hs]
    simp only [List.length_cons, find_prefixes_loop_length s hs t hwf]
    omega
  · intro h0
    rcases find_word_cases t hwf s hs with ⟨n, h1, h2, h3⟩ | ⟨h1, h2⟩
    · exact (follow_isSome_iff t s).mp (by simp [h1])
    · have := complement_neg (walk_len t s)
      omega
  · intro hval hneg
    rcases find_word_cases t hwf s hs with ⟨n, h1, h2, h3⟩ | ⟨h1, h2⟩
    · have hge := values_ok_follow t hval s n h1
      unfold EMPTY_VALUE at hge h2
      omega
    · rw [h2]; unfold complement; omega

/-- C7, on the trie of `_tmain`: `"hack"` gives count 1 with the single entry `-1`, and the
theorem applied to `"hack"`. -/
theorem prefix_trace_length_witness :
    trie_find_prefixes (some test_trie) (cstr "hack") = [1, -1] ∧
    (test_trie.wf = true ∧ 0 ∉ cstr "hack" ∧ values_ok test_trie = true) ∧
    ∃ m : Nat, is_longest_followable test_trie (cstr "hack") m ∧
      (trie_find_prefixes (some test_trie) (cstr "hack"))[0]? = some (1 + (m : Int)) ∧
      (trie_find_prefixes (some test_trie) (cstr "hack")).length = 1 + (1 + m) ∧
      (0 ≤ trie_find_word (some test_trie) (cstr "hack") → m = (cstr "hack").length) ∧
      (values_ok test_trie = true → trie_find_word (some test_trie) (cstr "hack") < 0 →
        -(trie_find_word (some test_trie) (cstr "hack")) - 1 = (m : Int)) :=
  ⟨by decide!, ⟨by decide!, by decide, by decide!⟩,
    prefix_trace_length test_trie (by decide!) (cstr "hack") (by decide)⟩

/-- C7 as stated fails on a trie holding a negative payload: in `negative_payload_trie`
the longest prefix of `"a"` that can be followed has length 1 (the count is 2), while
`trie_find_word` returns `-3`, a failure whose reported matched length is `2`. -/
theorem prefix_trace_length_counterexample :
    negative_payload_trie.wf = true ∧
    (trie_find_prefixes (some negative_payload_trie) (cstr "a"))[0]? = some (1 + 1) ∧
    (follow negative_payload_trie (cstr "a")).isSome = true ∧
    trie_find_word (some negative_payload_trie) (cstr "a") < 0 ∧
    -(trie_find_word (some negative_payload_trie) (cstr "a")) - 1 ≠ 1 := by
  decide!

/-- C8. For every trie and string `s`, `trie_find_prefixes` returns at most
`length(s) + 1` entries, and if `trie_find_word` succeeds on `s` with value `v`, the trace
has exactly `length(s) + 1` entries and its last entry is `v`. -/
theorem prefix_monotonicity (t : Node) (hwf : t.wf = true) (s : List Nat) (hs : 0 ∉ s) :
    ∃ c : Nat, (trie_find_prefixes (some t) s)[0]? = some (c : Int) ∧
      (trie_find_prefixes (some t) s).length = c + 1 ∧
      c ≤ s.length + 1 ∧
      ∀ v : Int, trie_find_word (some t) s = v → 0 ≤ v →
        c = s.length + 1 ∧ (trie_find_prefixes (some t) s)[c]? = some v := by
  refine ⟨walk_len t s + 1, ?_, ?_, ?_, ?_⟩
  · rw [prefixes_count t hwf s hs]; simp
  · rw [prefixes_count t hwf s hs]
    simp [find_prefixes_loop_length s hs t hwf]
  · have := walk_len_le s t; omega
  · intro v hv h0
    rcases find_word_cases t hwf s hs with ⟨n, h1, h2, h3⟩ | ⟨h1, h2⟩
    · have hlen : walk_len t s = s.length := (follow_isSome_iff t s).mp (by simp [h1])
      refine ⟨by omega, ?_⟩
      rw [prefixes_count t hwf s hs]
      simp only [List.getElem?_cons_succ]
      rw [find_prefixes_loop_get s hs t hwf _ (le_refl _), hlen, List.take_length]
      simp [lookup, h1, ← hv, h3]
    · have := complement_neg (walk_len t s)
      omega

/-- C8, on the trie of `_tmain` and the word `"abstract"`, found with value `0`. -/
theorem prefix_monotonicity_witness :
    trie_find_word (some test_trie) (cstr "abstract") = 0 ∧
    (test_trie.wf = true ∧ 0 ∉ cstr "abstract") ∧
    ∃ c : Nat, (trie_find_prefixes (some test_trie) (cstr "abstract"))[0]? = some (c : Int) ∧
      (trie_find_prefixes (some test_trie) (cstr "abstract")).length = c + 1 ∧
      c ≤ (cstr "abstract").length + 1 ∧
      ∀ v : Int, trie_find_word (some test_trie) (cstr "abstract") = v → 0 ≤ v →
        c = (cstr "abstract").length + 1 ∧
        (trie_find_prefixes (some test_trie) (cstr "abstract"))[c]? = some v :=
  ⟨by decide!, ⟨by decide!, by decide⟩,
    prefix_monotonicity test_trie (by decide!) (cstr "abstract") (by decide)⟩

/-! ## The split finder -/

theorem flat_get (ts : List (Int × Int × Int)) :
    ∀ (k : Nat) (t : Int × Int × Int), ts[k]? = some t →
    (ts.flatMap (fun t => [t.1, t.2.1, t.2.2]))[3 * k]? = some t.1 ∧
    (ts.flatMap (fun t => [t.1, t.2.1, t.2.2]))[3 * k + 1]? = some t.2.1 ∧
    (ts.flatMap (fun t => [t.1, t.2.1, t.2.2]))[3 * k + 2]? = some t.2.2 := by
  induction ts with
  | nil => intro k t h; simp at h
  | cons x xs ih =>
    intro k t h
    cases k with
    | zero =>
      simp at h
      subst h
      simp [List.flatMap_cons]
    | succ k =>
      simp only [List.getElem?_cons_succ] at h
      obtain ⟨h1, h2, h3⟩ := ih k t h
      simp only [List.flatMap_cons, List.cons_append, List.nil_append]
      refine ⟨?_, ?_, ?_⟩
      · rw [show 3 * (k + 1) = (3 * k) + 1 + 1 + 1 by omega]
        simpa only [List.getElem?_cons_succ] using h1
      · rw [show 3 * (k + 1) + 1 = (3 * k + 1) + 1 + 1 + 1 by omega]
        simpa only [List.getElem?_cons_succ] using h2
      · rw [show 3 * (k + 1) + 2 = (3 * k + 2) + 1 + 1 + 1 by omega]
        simpa only [List.getElem?_cons_succ] using h3

/-- The triples of the result array of `trie_find_splits`. -/
theorem splits_get (pt st : Option Node) (key : List Nat) (k : Nat) (t : Int × Int × Int)
    (h : (find_splits_loop (trie_find_prefixes pt key) (trie_find_prefixes st key.reverse)
      key.length ((trie_find_prefixes pt key).headD 0)
      ((trie_find_prefixes st key.reverse).headD 0))[k]? = some t) :
    (trie_find_splits pt st key)[3 * k + 1]? = some t.1 ∧
    (trie_find_splits pt st key)[3 * k + 2]? = some t.2.1 ∧
    (trie_find_splits pt st key)[3 * k + 3]? = some t.2.2 := by
  unfold trie_find_splits
  simp only [List.getElem?_cons_succ]
  exact flat_get _ k t h

theorem splits_count (pt st : Option Node) (key : List Nat) :
    (trie_find_splits pt st key).headD 0 =
    ((find_splits_loop (trie_find_prefixes pt key) (trie_find_prefixes st key.reverse)
      key.length ((trie_find_prefixes pt key).headD 0)
      ((trie_find_prefixes st key.reverse).headD 0)).length : Int) := by
  unfold trie_find_splits
  simp

theorem int_index_succ (c : Int) (a : List Int) (x : Int) (n : Nat) (h : x = (n : Int)) :
    int_index (c :: a) (x + 1) = a[n]? := by
  subst h
  have h0 : (0 : Int) ≤ (n : Int) + 1 := by omega
  have h1 : ((n : Int) + 1).toNat = n + 1 := by omega
  simp [int_index, h0, h1]

/-- Membership in the list of triples the loop of `trie_find_splits` writes, for
well-formed tries: the index runs over `l - s0 < i < p0`, and both trace entries are the
values of the nodes reached by the two halves of the key. -/
theorem splits_mem (pt st : Node) (hp : pt.wf = true) (hs : st.wf = true)
    (key : List Nat) (hk : 0 ∉ key) (t : Int × Int × Int) :
    t ∈ find_splits_loop (trie_find_prefixes (some pt) key)
      (trie_find_prefixes (some st) key.reverse)
      key.length ((trie_find_prefixes (some pt) key).headD 0)
      ((trie_find_prefixes (some st) key.reverse).headD 0) ↔
    ∃ i : Nat, t.1 = (i : Int) ∧ i ≤ walk_len pt key ∧
      key.length - i ≤ walk_len st key.reverse ∧
      lookup pt (key.take i) = some t.2.1 ∧
      lookup st (key.drop i).reverse = some t.2.2 ∧
      t.2.1 ≠ -1 ∧ t.2.2 ≠ -1 := by
  have hkr : 0 ∉ key.reverse := by simpa using hk
  have hwp := walk_len_le key pt
  have hws := walk_len_le key.reverse st
  simp only [List.length_reverse] at hws
  rw [prefixes_count pt hp key hk, prefixes_count st hs key.reverse hkr]
  simp only [List.headD_cons, find_splits_loop, List.mem_filterMap, List.mem_range]
  constructor
  · rintro ⟨j, hj, hbody⟩
    rw [Int.lt_toNat] at hj
    push_cast at hj
    obtain ⟨i, hi⟩ : ∃ i : Nat, i = key.length - walk_len st key.reverse + j := ⟨_, rfl⟩
    obtain ⟨si, hsi⟩ : ∃ si : Nat, si = key.length - i := ⟨_, rfl⟩
    have hpi : (key.length : Int) - ((walk_len st key.reverse + 1 : Nat) : Int) + 1 + (j : Int)
        = (i : Int) := by
      push_cast
      omega
    have hjlt : i ≤ walk_len pt key := by omega
    have hsi2 : (key.length : Int) - (i : Int) = (si : Int) := by omega
    simp only [hpi] at hbody
    rw [int_index_succ _ _ _ i rfl, int_index_succ _ _ _ si hsi2,
      find_prefixes_loop_get key hk pt hp i hjlt,
      find_prefixes_loop_get key.reverse hkr st hs si (by omega), hsi,
      ← List.reverse_drop] at hbody
    cases h1 : lookup pt (key.take i) with
    | none => rw [h1] at hbody; simp at hbody
    | some p =>
      cases h2 : lookup st (key.drop i).reverse with
      | none => rw [h1, h2] at hbody; simp at hbody
      | some s =>
        rw [h1, h2] at hbody
        simp only [] at hbody
        by_cases hc : p ≠ -1 ∧ s ≠ -1
        · rw [if_pos hc] at hbody
          simp only [Option.some.injEq] at hbody
          subst hbody
          exact ⟨i, rfl, hjlt, by omega, h1, h2, hc.1, hc.2⟩
        · rw [if_neg hc] at hbody
          exact absurd hbody (by simp)
  · rintro ⟨i, hi1, hi2, hi3, hi4, hi5, hi6, hi7⟩
    obtain ⟨si, hsi⟩ : ∃ si : Nat, si = key.length - i := ⟨_, rfl⟩
    refine ⟨i - (key.length - walk_len st key.reverse), ?_, ?_⟩
    · rw [Int.lt_toNat]
      push_cast
      omega
    · have hpi : (key.length : Int) - ((walk_len st key.reverse + 1 : Nat) : Int) + 1 +
          ((i - (key.length - walk_len st key.reverse) : Nat) : Int) = (i : Int) := by
        push_cast
        omega
      have hsi2 : (key.length : Int) - (i : Int) = (si : Int) := by omega
      simp only [hpi]
      rw [int_index_succ _ _ _ i rfl, int_index_succ _ _ _ si hsi2,
        find_prefixes_loop_get key hk pt hp i hi2,
        find_prefixes_loop_get key.reverse hkr st hs si (by omega), hsi,
        ← List.reverse_drop]
      simp only [hi4, hi5]
      simp [hi6, hi7, ← hi1]

/-- The split indices the loop writes are strictly increasing. -/
theorem splits_increasing (prefixes suffixes : List Int) (l p0 s0 : Int) :
    List.Pairwise (fun a b : Int × Int × Int => a.1 < b.1)
      (find_splits_loop prefixes suffixes l p0 s0) := by
  unfold find_splits_loop
  refine List.Pairwise.filterMap _ ?_ (List.pairwise_lt_range _)
  intro a a2 hlt b hb b2 hb2
  simp only [Option.mem_def] at hb hb2
  have e1 : b.1 = l - s0 + 1 + (a : Int) := by
    split at hb
    · split at hb
      · simp only [Option.some.injEq] at hb; rw [← hb]
      · simp at hb
    · simp at hb
  have e2 : b2.1 = l - s0 + 1 + (a2 : Int) := by
    split at hb2
    · split at hb2
      · simp only [Option.some.injEq] at hb2; rw [← hb2]
      · simp at hb2
    · simp at hb2
  rw [e1, e2]
  omega

theorem splits_index_unique (ts : List (Int × Int × Int))
    (h : List.Pairwise (fun a b : Int × Int × Int => a.1 < b.1) ts)
    (k1 k2 : Nat) (t1 t2 : Int × Int × Int) (h1 : ts[k1]? = some t1) (h2 : ts[k2]? = some t2)
    (he : t1.1 = t2.1) : k1 = k2 := by
  rw [List.pairwise_iff_getElem] at h
  obtain ⟨hl1, e1⟩ := List.getElem?_eq_some.mp h1
  obtain ⟨hl2, e2⟩ := List.getElem?_eq_some.mp h2
  rcases Nat.lt_trichotomy k1 k2 with hlt | heq | hgt
  · have := h k1 k2 hl1 hl2 hlt
    rw [e1, e2] at this
    omega
  · exact heq
  · have := h k2 k1 hl2 hl1 hgt
    rw [e1, e2] at this
    omega

theorem lookup_nonneg (t : Node) (hv : values_ok t = true) (u : List Nat) (v : Int)
    (h : lookup t u = some v) (hne : v ≠ -1) : 0 ≤ v := by
  unfold lookup at h
  cases hf : follow t u with
  | none => rw [hf] at h; simp at h
  | some n =>
    rw [hf] at h
    simp only [Option.map_some', Option.some.injEq] at h
    have := values_ok_follow t hv _ n hf
    unfold EMPTY_VALUE at this
    omega

theorem not_mem_drop_reverse (s : List Nat) (i : Nat) (hs : 0 ∉ s) :
    0 ∉ (s.drop i).reverse :=
  fun hm => hs (List.mem_of_mem_drop (List.mem_reverse.mp hm))

/-- C2. Split soundness: on tries holding only non-negative or `EMPTY` values, every triple
`(i, pv, sv)` in the result of `trie_find_splits` is such that `trie_find_word` succeeds
with value `pv` on `key[0..i)` in the prefix trie and with value `sv` on the reverse of
`key[i..)` in the suffix trie. -/
theorem split_soundness (pt st : Node) (hp : pt.wf = true) (hs : st.wf = true)
    (hpv : values_ok pt = true) (hsv : values_ok st = true)
    (key : List Nat) (hk : 0 ∉ key) (k : Nat)
    (hcount : (k : Int) < (trie_find_splits (some pt) (some st) key).headD 0) :
    ∃ (i : Nat) (pv sv : Int),
      (trie_find_splits (some pt) (some st) key)[3 * k + 1]? = some (i : Int) ∧
      (trie_find_splits (some pt) (some st) key)[3 * k + 2]? = some pv ∧
      (trie_find_splits (some pt) (some st) key)[3 * k + 3]? = some sv ∧
      i ≤ key.length ∧
      trie_find_word (some pt) (key.take i) = pv ∧ 0 ≤ pv ∧
      trie_find_word (some st) (key.drop i).reverse = sv ∧ 0 ≤ sv := by
  rw [splits_count] at hcount
  have hlt : k < (find_splits_loop (trie_find_prefixes (some pt) key)
      (trie_find_prefixes (some st) key.reverse) key.length
      ((trie_find_prefixes (some pt) key).headD 0)
      ((trie_find_prefixes (some st) key.reverse).headD 0)).length := by omega
  obtain ⟨t, ht⟩ : ∃ t, (find_splits_loop (trie_find_prefixes (some pt) key)
      (trie_find_prefixes (some st) key.reverse) key.length
      ((trie_find_prefixes (some pt) key).headD 0)
      ((trie_find_prefixes (some st) key.reverse).headD 0))[k]? = some t :=
    ⟨_, List.getElem?_eq_getElem hlt⟩
  obtain ⟨g1, g2, g3⟩ := splits_get (some pt) (some st) key k t ht
  obtain ⟨i, e1, e2, e3, e4, e5, e6, e7⟩ :=
    (splits_mem pt st hp hs key hk t).mp (List.getElem?_mem ht)
  have hil : i ≤ key.length := le_trans e2 (walk_len_le key pt)
  have hpge := lookup_nonneg pt hpv _ _ e4 e6
  have hsge := lookup_nonneg st hsv _ _ e5 e7
  refine ⟨i, t.2.1, t.2.2, ?_, g2, g3, hil, ?_, hpge, ?_, hsge⟩
  · rw [g1, e1]
  · exact (find_word_nonneg_iff pt hp _ (not_mem_take key i hk) _ hpge).mpr e4
  · exact (find_word_nonneg_iff st hs _ (not_mem_drop_reverse key i hk) _ hsge).mpr e5

/-- C2, on the trie of `_tmain`: the three tested keys, and the theorem applied to the
first triple found for `"enumfi"`. -/
theorem split_soundness_witness :
    (trie_find_splits (some test_trie) (some test_trie) (cstr "enumfi") = [1, 4, 16, 26] ∧
     trie_find_splits (some test_trie) (some test_trie) (cstr "intba") = [1, 3, 31, 60] ∧
     trie_find_splits (some test_trie) (some test_trie) (cstr "intsba") = [1, 2, 29, 61]) ∧
    (test_trie.wf = true ∧ values_ok test_trie = true ∧ 0 ∉ cstr "enumfi" ∧
      ((0 : Nat) : Int) <
        (trie_find_splits (some test_trie) (some test_trie) (cstr "enumfi")).headD 0) ∧
    ∃ (i : Nat) (pv sv : Int),
      (trie_find_splits (some test_trie) (some test_trie) (cstr "enumfi"))[3 * 0 + 1]? =
        some (i : Int) ∧
      (trie_find_splits (some test_trie) (some test_trie) (cstr "enumfi"))[3 * 0 + 2]? =
        some pv ∧
      (trie_find_splits (some test_trie) (some test_trie) (cstr "enumfi"))[3 * 0 + 3]? =
        some sv ∧
      i ≤ (cstr "enumfi").length ∧
      trie_find_word (some test_trie) ((cstr "enumfi").take i) = pv ∧ 0 ≤ pv ∧
      trie_find_word (some test_trie) ((cstr "enumfi").drop i).reverse = sv ∧ 0 ≤ sv :=
  ⟨by decide!, ⟨by decide!, by decide!, by decide, by decide!⟩,
    split_soundness test_trie test_trie (by decide!) (by decide!) (by decide!) (by decide!)
      (cstr "enumfi") (by decide) 0 (by decide!)⟩

/-- C3. Split completeness: every index `i` with `1 ≤ i < length(key)` for which
`trie_find_word` succeeds on `key[0..i)` in the prefix trie and on the reverse of `key[i..)`
in the suffix trie is the split index of exactly one triple of the result of
`trie_find_splits` (carrying the two values found), and lies in the candidate range
`l - s0 < i < p0` of the two trace counts. -/
theorem split_completeness (pt st : Node) (hp : pt.wf = true) (hs : st.wf = true)
    (key : List Nat) (hk : 0 ∉ key) (i : Nat) (h1 : 1 ≤ i) (h2 : i < key.length)
    (hpre : 0 ≤ trie_find_word (some pt) (key.take i))
    (hsuf : 0 ≤ trie_find_word (some st) (key.drop i).reverse) :
    (∃ k : Nat,
      ((k : Int) < (trie_find_splits (some pt) (some st) key).headD 0 ∧
       (trie_find_splits (some pt) (some st) key)[3 * k + 1]? = some (i : Int) ∧
       (trie_find_splits (some pt) (some st) key)[3 * k + 2]? =
         some (trie_find_word (some pt) (key.take i)) ∧
       (trie_find_splits (some pt) (some st) key)[3 * k + 3]? =
         some (trie_find_word (some st) (key.drop i).reverse)) ∧
      ∀ k2 : Nat, (k2 : Int) < (trie_find_splits (some pt) (some st) key).headD 0 →
        (trie_find_splits (some pt) (some st) key)[3 * k2 + 1]? = some (i : Int) → k2 = k) ∧
    ((key.length : Int) - (trie_find_prefixes (some st) key.reverse).headD 0 < (i : Int) ∧
     (i : Int) < (trie_find_prefixes (some pt) key).headD 0) := by
  have hk1 := not_mem_take key i hk
  have hk2 := not_mem_drop_reverse key i hk
  have hkr : 0 ∉ key.reverse := by simpa using hk
  have l1 := (find_word_nonneg_iff pt hp _ hk1 _ hpre).mp rfl
  have l2 := (find_word_nonneg_iff st hs _ hk2 _ hsuf).mp rfl
  have w1 : i ≤ walk_len pt key := by
    apply (follow_take_isSome key pt i (by omega)).mp
    unfold lookup at l1
    cases hf : follow pt (key.take i) with
    | none => rw [hf] at l1; simp at l1
    | some n => rfl
  have w2 : key.length - i ≤ walk_len st key.reverse := by
    apply (follow_take_isSome key.reverse st (key.length - i) (by simp)).mp
    rw [← List.reverse_drop]
    unfold lookup at l2
    cases hf : follow st (key.drop i).reverse with
    | none => rw [hf] at l2; simp at l2
    | some n => rfl
  have hmem := (splits_mem pt st hp hs key hk
    ((i : Int), trie_find_word (some pt) (key.take i),
      trie_find_word (some st) (key.drop i).reverse)).mpr
    ⟨i, rfl, w1, w2, l1, l2, by simp only; omega, by simp only; omega⟩
  obtain ⟨k, hklt, hkget⟩ := List.getElem_of_mem hmem
  have hkget2 := (List.getElem?_eq_some.mpr ⟨hklt, hkget⟩)
  obtain ⟨g1, g2, g3⟩ := splits_get (some pt) (some st) key k _ hkget2
  refine ⟨⟨k, ⟨?_, g1, g2, g3⟩, ?_⟩, ?_, ?_⟩
  · rw [splits_count]; omega
  · intro k2 hk2lt hk2get
    rw [splits_count] at hk2lt
    have hlt2 : k2 < (find_splits_loop (trie_find_prefixes (some pt) key)
        (trie_find_prefixes (some st) key.reverse) key.length
        ((trie_find_prefixes (some pt) key).headD 0)
        ((trie_find_prefixes (some st) key.reverse).headD 0)).length := by omega
    obtain ⟨t2, ht2⟩ : ∃ t, (find_splits_loop (trie_find_prefixes (some pt) key)
        (trie_find_prefixes (some st) key.reverse) key.length
        ((trie_find_prefixes (some pt) key).headD 0)
        ((trie_find_prefixes (some st) key.reverse).headD 0))[k2]? = some t :=
      ⟨_, List.getElem?_eq_getElem hlt2⟩
    obtain ⟨f1, _, _⟩ := splits_get (some pt) (some st) key k2 t2 ht2
    rw [f1] at hk2get
    simp only [Option.some.injEq] at hk2get
    exact splits_index_unique _ (splits_increasing _ _ _ _ _) k2 k t2 _ ht2 hkget2 hk2get
  · rw [prefixes_count st hs key.reverse hkr]
    simp only [List.headD_cons]
    push_cast
    omega
  · rw [prefixes_count pt hp key hk]
    simp only [List.headD_cons]
    push_cast
    omega

/-- C3, on the trie of `_tmain` and the key `"enumfi"` at the split index 4. -/
theorem split_completeness_witness :
    (test_trie.wf = true ∧ 0 ∉ cstr "enumfi" ∧ 1 ≤ 4 ∧ 4 < (cstr "enumfi").length ∧
      0 ≤ trie_find_word (some test_trie) ((cstr "enumfi").take 4) ∧
      0 ≤ trie_find_word (some test_trie) ((cstr "enumfi").drop 4).reverse) ∧
    (∃ k : Nat,
      ((k : Int) < (trie_find_splits (some test_trie) (some test_trie) (cstr "enumfi")).headD 0 ∧
       (trie_find_splits (some test_trie) (some test_trie) (cstr "enumfi"))[3 * k + 1]? =
         some ((4 : Nat) : Int) ∧
       (trie_find_splits (some test_trie) (some test_trie) (cstr "enumfi"))[3 * k + 2]? =
         some (trie_find_word (some test_trie) ((cstr "enumfi").take 4)) ∧
       (trie_find_splits (some test_trie) (some test_trie) (cstr "enumfi"))[3 * k + 3]? =
         some (trie_find_word (some test_trie) ((cstr "enumfi").drop 4).reverse)) ∧
      ∀ k2 : Nat,
        (k2 : Int) < (trie_find_splits (some test_trie) (some test_trie) (cstr "enumfi")).headD 0 →
        (trie_find_splits (some test_trie) (some test_trie) (cstr "enumfi"))[3 * k2 + 1]? =
          some ((4 : Nat) : Int) → k2 = k) ∧
    (((cstr "enumfi").length : Int) -
        (trie_find_prefixes (some test_trie) (cstr "enumfi").reverse).headD 0 < ((4 : Nat) : Int) ∧
     ((4 : Nat) : Int) < (trie_find_prefixes (some test_trie) (cstr "enumfi")).headD 0) :=
  ⟨⟨by decide!, by decide, by decide, by decide, by decide!, by decide!⟩,
    split_completeness test_trie test_trie (by decide!) (by decide!) (cstr "enumfi")
      (by decide) 4 (by decide) (by decide) (by decide!) (by decide!)⟩

/-! ## Insertion -/

theorem all_mk (p : Node → Bool) (v : Int) (cs : Option (List Nat)) (ks : Option (List Node)) :
    Node.all p (Node.mk v cs ks) =
      (p (Node.mk v cs ks) && Node.all_list p (ks.getD [])) := by
  cases ks with
  | none => simp [Node.all, Node.all_list]
  | some ks => simp [Node.all]

theorem all_list_set (p : Node → Bool) (ks : List Node) (h : Node.all_list p ks = true)
    (i : Nat) (k : Node) (hk : Node.all p k = true) :
    Node.all_list p (ks.set i k) = true := by
  induction ks generalizing i with
  | nil => simpa using h
  | cons x xs ih =>
    simp only [Node.all_list, Bool.and_eq_true] at h
    cases i with
    | zero => simp [Node.all_list, hk, h.2]
    | succ i => simp [Node.all_list, h.1, ih h.2 i]

theorem all_list_append (p : Node → Bool) (ks js : List Node) :
    Node.all_list p (ks ++ js) = (Node.all_list p ks && Node.all_list p js) := by
  induction ks with
  | nil => simp [Node.all_list]
  | cons x xs ih => simp [Node.all_list, ih, Bool.and_assoc]

theorem all_list_take (p : Node → Bool) (ks : List Node) (h : Node.all_list p ks = true)
    (n : Nat) : Node.all_list p (ks.take n) = true := by
  induction ks generalizing n with
  | nil => simpa using h
  | cons x xs ih =>
    simp only [Node.all_list, Bool.and_eq_true] at h
    cases n with
    | zero => simp [Node.all_list]
    | succ n => simp [Node.all_list, h.1, ih h.2 n]

theorem all_set_child (p : Node → Bool) (n : Node) (hn : Node.all p n = true) (i : Nat)
    (k : Node) (hk : Node.all p k = true) (hp : p (set_child n i k) = true) :
    Node.all p (set_child n i k) = true := by
  cases n with
  | mk v cs ks =>
    rw [all_mk] at hn
    simp only [Bool.and_eq_true] at hn
    cases ks with
    | none => simp [set_child, Node.all] at hp ⊢; exact hp
    | some ks =>
      simp only [set_child, Option.map_some', Node.all, Bool.and_eq_true] at hp ⊢
      exact ⟨hp, all_list_set p ks (by simpa using hn.2) i k hk⟩

theorem node_ok_set_child (n : Node) (h : node_ok n = true) (i : Nat) (k : Node) :
    node_ok (set_child n i k) = true := by
  cases n with
  | mk v cs ks =>
    cases ks with
    | none => simpa [set_child] using h
    | some ks =>
      cases cs with
      | none => simp [set_child, node_ok, Node.choices]
      | some cs => simpa [set_child, node_ok, Node.choices, Node.children] using h

theorem wf_set_child (n : Node) (hn : n.wf = true) (i : Nat) (k : Node) (hk : k.wf = true) :
    (set_child n i k).wf = true :=
  all_set_child node_ok n hn i k hk (node_ok_set_child n (all_self node_ok n hn) i k)

theorem set_child_value (n : Node) (i : Nat) (k : Node) :
    (set_child n i k).value = n.value := by
  cases n; rfl

theorem set_child_choices (n : Node) (i : Nat) (k : Node) :
    (set_child n i k).choices = n.choices := by
  cases n; rfl

theorem child_at_set_child (n : Node) (i : Nat) (k : Node) (j : Nat) :
    child_at (set_child n i k).children j =
      if i = j then (child_at n.children j).map (fun _ => k) else child_at n.children j := by
  cases n with
  | mk v cs ks =>
    cases ks with
    | none => simp [set_child, child_at, Node.children]
    | some ks =>
      simp only [set_child, child_at, Node.children, Option.map_some']
      by_cases hij : i = j
      · subst hij
        simp only [if_true]
        by_cases hlt : i < ks.length
        · simp [List.getElem?_eq_getElem, hlt]
        · have hge : ks.length ≤ i := by omega
          simp [List.getElem?_eq_none, hge]
      · simp only [hij, if_false]
        exact List.getElem?_set_ne hij

/-- Replacing the child reached through the label `c` changes the edge labelled `c`
and no other edge. -/
theorem edge_set_child (n : Node) (cs : List Nat) (hcs : n.choices = some cs) (c : Nat)
    (hc : c ∈ cs) (old : Node) (hold : child_at n.children (cs.indexOf c) = some old)
    (k : Node) (d : Nat) :
    (set_child n (cs.indexOf c) k).edge d = if d = c then some k else n.edge d := by
  unfold Node.edge
  rw [set_child_choices, hcs]
  simp only
  by_cases hd : d ∈ cs
  · simp only [hd, if_true, child_at_set_child]
    by_cases hdc : d = c
    · subst hdc
      simp [hold]
    · have hne : cs.indexOf c ≠ cs.indexOf d := by
        intro e
        exact hdc ((List.indexOf_inj hd hc).mp e.symm)
      simp [hne, hdc]
  · have hdc : d ≠ c := fun e => hd (e ▸ hc)
    simp [hd, hdc]

theorem wf_empty : (Node.mk EMPTY_VALUE none none).wf = true := by decide

/-- The call `_add_choice(node, chr)` on a node that has no label `chr` and as many
children as labels appends the label and an empty child. -/
theorem add_choice_eq (v : Int) (chs : List Nat) (ks : Option (List Node))
    (hlen : chs.length = (ks.getD []).length) (c : Nat) :
    _add_choice (Node.mk v (some chs) ks) c =
      (Node.mk v (some (chs ++ [c])) (some (ks.getD [] ++ [Node.mk EMPTY_VALUE none none])),
        chs.length) := by
  cases ks with
  | none => simp [_add_choice]
  | some ks =>
    simp only [Option.getD_some] at hlen
    simp [_add_choice, hlen]

theorem add_choice_null (v : Int) (ks : Option (List Node)) (c : Nat) :
    _add_choice (Node.mk v none ks) c =
      (Node.mk v (some [c]) (some [Node.mk EMPTY_VALUE none none]), 0) := by
  cases ks <;> simp [_add_choice]

/-- One iteration of the loop of `trie_add_word` at a well-formed node: after the
iteration the node `n1` has the label `c`, leading to the child `k` that the loop
continues with; every other edge is as before. -/
theorem add_word_cons (t : Node) (hwf : t.wf = true) (c : Nat) (hc : c ≠ 0)
    (rest : List Nat) :
    ∃ (n1 : Node) (k : Node) (cs : List Nat),
      n1.value = t.value ∧ n1.choices = some cs ∧ c ∈ cs ∧
      child_at n1.children (cs.indexOf c) = some k ∧ n1.wf = true ∧ k.wf = true ∧
      (∀ d, d ≠ c → n1.edge d = t.edge d) ∧
      ((t.edge c = some k ∧ n1 = t) ∨
        (t.edge c = none ∧ k = Node.mk EMPTY_VALUE none none ∧
          n1 = (_add_choice t c).1)) ∧
      trie_add_word t (c :: rest) =
        (set_child n1 (cs.indexOf c) (trie_add_word k rest).1,
          cs.indexOf c :: (trie_add_word k rest).2) := by
  have hok := all_self node_ok t hwf
  cases t with
  | mk v chs ks =>
    cases chs with
    | none =>
      refine ⟨Node.mk v (some [c]) (some [Node.mk EMPTY_VALUE none none]),
        Node.mk EMPTY_VALUE none none, [c], rfl, rfl, by simp, ?_, ?_, wf_empty, ?_,
        Or.inr ⟨by simp [Node.edge, Node.choices], rfl, by rw [add_choice_null]⟩, ?_⟩
      · simp [child_at, Node.children]
      · simp [Node.wf, Node.all, Node.all_list, node_ok, Node.choices, Node.children]
      · intro d hd
        simp [Node.edge, Node.choices, hd]
      · simp [trie_add_word, Node.choices, add_choice_null, child_at, Node.children]
    | some chs =>
      by_cases hm : c ∈ chs
      · obtain ⟨k, hk⟩ := wf_edge_some _ hwf chs rfl c hm
        have hk2 : child_at (Node.mk v (some chs) ks).children (chs.indexOf c) = some k := by
          simpa [Node.edge, Node.choices, hm] using hk
        refine ⟨Node.mk v (some chs) ks, k, chs, rfl, rfl, hm, hk2, hwf,
          wf_edge _ hwf c k hk, fun d _ => rfl, Or.inl ⟨hk, rfl⟩, ?_⟩
        simp only [trie_add_word, Node.choices, strchr_eq chs c hc, hm, if_true, hk2]
      · have hlen : chs.length = (ks.getD []).length := by
          simpa [node_ok, Node.choices, Node.children] using hok
        have hall : Node.all_list node_ok (ks.getD []) = true := by
          have := hwf
          unfold Node.wf at this
          rw [all_mk] at this
          simp only [Bool.and_eq_true] at this
          exact this.2
        have hidx : (chs ++ [c]).indexOf c = chs.length := by
          rw [List.indexOf_append_of_not_mem hm]
          simp
        refine ⟨Node.mk v (some (chs ++ [c]))
          (some (ks.getD [] ++ [Node.mk EMPTY_VALUE none none])),
          Node.mk EMPTY_VALUE none none, chs ++ [c], rfl, rfl, by simp, ?_, ?_, wf_empty,
          ?_, Or.inr ⟨by simp [Node.edge, Node.choices, hm], rfl,
            by rw [add_choice_eq v chs ks hlen c]⟩, ?_⟩
        · rw [hidx]
          simp [child_at, Node.children, hlen]
        · unfold Node.wf
          rw [all_mk]
          simp only [Option.getD_some, all_list_append, hall, Bool.and_eq_true]
          refine ⟨?_, trivial, ?_⟩
          · simp [node_ok, Node.choices, Node.children, hlen]
          · decide
        · intro d hd
          simp only [Node.edge, Node.choices, Node.children, List.mem_append,
            List.mem_singleton, hd, or_false]
          by_cases hdm : d ∈ chs
          · simp only [hdm, if_true]
            rw [List.indexOf_append_of_mem hdm]
            have hlt : chs.indexOf d < (ks.getD []).length := by
              rw [← hlen]; exact List.indexOf_lt_length.mpr hdm
            cases ks with
            | none => simp at hlt
            | some ks =>
              simp only [Option.getD_some] at hlt ⊢
              simp [child_at, List.getElem?_append_left hlt]
          · simp [hdm]
        · simp only [trie_add_word, Node.choices, strchr_eq chs c hc, hm, if_false,
            add_choice_eq v chs ks hlen c, hidx]
          simp [child_at, Node.children, hlen]

theorem wf_add_word (w : List Nat) (hw : 0 ∉ w) :
    ∀ t : Node, t.wf = true → (trie_add_word t w).1.wf = true := by
  induction w with
  | nil => intro t h; simpa [trie_add_word] using h
  | cons c rest ih =>
    intro t h
    have hc : c ≠ 0 := fun e => hw (by simp [e])
    have hrest : 0 ∉ rest := fun e => hw (by simp [e])
    obtain ⟨n1, k, cs, _, _, _, _, hn1, hk, _, _, heq⟩ := add_word_cons t h c hc rest
    rw [heq]
    exact wf_set_child n1 hn1 _ _ (ih hrest k hk)

/-- The pointer returned by `trie_add_word` designates the node the word reaches. -/
theorem add_word_path (w : List Nat) (hw : 0 ∉ w) :
    ∀ t : Node, t.wf = true → IsPath (trie_add_word t w).1 w (trie_add_word t w).2 := by
  induction w with
  | nil => intro t _; exact IsPath.nil _
  | cons c rest ih =>
    intro t h
    have hc : c ≠ 0 := fun e => hw (by simp [e])
    have hrest : 0 ∉ rest := fun e => hw (by simp [e])
    obtain ⟨n1, k, cs, _, hcs, hm, hchild, hn1, hk, _, _, heq⟩ := add_word_cons t h c hc rest
    rw [heq]
    refine IsPath.cons _ c rest _ cs _ ?_ hm ?_ (ih hrest k hk)
    · rw [set_child_choices]; exact hcs
    · rw [child_at_set_child]; simp [hchild]

theorem follow_empty (us : List Nat) (n : Node)
    (h : follow (Node.mk EMPTY_VALUE none none) us = some n) : n.value = EMPTY_VALUE := by
  cases us with
  | nil => simp [follow] at h; subst h; rfl
  | cons d us => simp [follow, Node.edge, Node.choices] at h

/-- Effect of `trie_add_word` on the nodes strings reach: a node reached before is still
reached and keeps its value; a node reached only afterwards has value `EMPTY_VALUE`. -/
theorem follow_add_word (w : List Nat) (hw : 0 ∉ w) :
    ∀ (t : Node), t.wf = true → ∀ u : List Nat,
    (∀ n, follow t u = some n →
      ∃ n2, follow (trie_add_word t w).1 u = some n2 ∧ n2.value = n.value) ∧
    (follow t u = none →
      ∀ n2, follow (trie_add_word t w).1 u = some n2 → n2.value = EMPTY_VALUE) := by
  induction w with
  | nil =>
    intro t _ u
    refine ⟨fun n hn => ⟨n, by simpa [trie_add_word] using hn, rfl⟩, fun hnone n2 hn2 => ?_⟩
    simp [trie_add_word, hnone] at hn2
  | cons c rest ih =>
    intro t h u
    have hc : c ≠ 0 := fun e => hw (by simp [e])
    have hrest : 0 ∉ rest := fun e => hw (by simp [e])
    obtain ⟨n1, k, cs, hval, hcs, hm, hchild, hn1, hk, hother, hcase, heq⟩ :=
      add_word_cons t h c hc rest
    rw [heq]
    simp only
    cases u with
    | nil =>
      refine ⟨fun n hn => ?_, fun hnone => by simp [follow] at hnone⟩
      simp only [follow, Option.some.injEq] at hn
      subst hn
      exact ⟨_, rfl, by rw [set_child_value, hval]⟩
    | cons d us =>
      simp only [follow, edge_set_child n1 cs hcs c hm k hchild]
      by_cases hdc : d = c
      · subst hdc
        simp only [if_true]
        rcases hcase with ⟨he, _⟩ | ⟨he, hke, _⟩
        · rw [he]
          exact ih hrest k hk us
        · rw [he]
          refine ⟨fun n hn => by simp at hn, fun _ n2 hn2 => ?_⟩
          obtain ⟨i1, i2⟩ := ih hrest k hk us
          cases hf : follow k us with
          | none => exact i2 hf n2 hn2
          | some n =>
            obtain ⟨n3, hn3, hv3⟩ := i1 n hf
            rw [hn2] at hn3
            simp only [Option.some.injEq] at hn3
            subst hn3
            rw [hv3]
            rw [hke] at hf
            exact follow_empty us n hf
      · simp only [hdc, if_false, hother d hdc]
        cases he : t.edge d with
        | none => exact ⟨fun n hn => by simp at hn, fun _ n2 hn2 => by simp at hn2⟩
        | some x =>
          refine ⟨fun n hn => ⟨n, hn, rfl⟩, fun hnone n2 hn2 => ?_⟩
          simp only at hnone hn2
          rw [hnone] at hn2
          simp at hn2

theorem edge_mk_value (v v2 : Int) (cs : Option (List Nat)) (ks : Option (List Node))
    (d : Nat) : (Node.mk v cs ks).edge d = (Node.mk v2 cs ks).edge d := rfl

theorem edge_of_path (t : Node) (cs : List Nat) (hcs : t.choices = some cs) (c : Nat)
    (hm : c ∈ cs) (k : Node) (hk : child_at t.children (cs.indexOf c) = some k) :
    t.edge c = some k := by
  simp [Node.edge, hcs, hm, hk]

/-- Effect of the assignment `id->value = v` on the values strings reach. -/
theorem lookup_set_value (t : Node) (w p : List Nat) (hp : IsPath t w p) (v : Int) :
    ∀ u : List Nat, lookup (set_value t p v) u = if u = w then some v else lookup t u := by
  induction hp with
  | nil t =>
    intro u
    cases t with
    | mk v0 cs ks =>
      cases u with
      | nil => simp [set_value, lookup, follow, Node.value]
      | cons d us =>
        simp only [set_value, lookup, follow, edge_mk_value v v0 cs ks d]
        simp
  | cons t c w p cs k hcs hm hchild _ ih =>
    intro u
    have hset : set_value t (cs.indexOf c :: p) v =
        set_child t (cs.indexOf c) (set_value k p v) := by
      cases t with
      | mk v0 cs0 ks0 => simp only [set_value, hchild]
    rw [hset]
    cases u with
    | nil => simp [lookup, follow, set_child_value]
    | cons d us =>
      simp only [lookup, follow, edge_set_child t cs hcs c hm k hchild]
      by_cases hdc : d = c
      · subst hdc
        simp only [if_true, edge_of_path t cs hcs d hm k hchild, List.cons.injEq, true_and]
        exact ih us
      · simp [hdc]

theorem node_at_path (t : Node) (w p : List Nat) (hp : IsPath t w p) :
    node_at t p = follow t w := by
  induction hp with
  | nil t => rfl
  | cons t c w p cs k hcs hm hchild _ ih =>
    simp only [node_at, follow, hchild, edge_of_path t cs hcs c hm k hchild]
    exact ih

theorem wf_set_value (p : List Nat) (v : Int) :
    ∀ t : Node, t.wf = true → (set_value t p v).wf = true := by
  induction p with
  | nil =>
    intro t h
    cases t with
    | mk v0 cs ks =>
      unfold Node.wf at h ⊢
      rw [all_mk] at h
      simp only [set_value]
      rw [all_mk]
      simpa [node_ok, Node.choices, Node.children] using h
  | cons i p ih =>
    intro t h
    cases hc : child_at t.children i with
    | none =>
      cases t with
      | mk v0 cs ks => simp only [set_value, hc]; exact h
    | some k =>
      have hk : k.wf = true := all_child node_ok t h i k hc
      cases t with
      | mk v0 cs ks =>
        simp only [set_value, hc]
        exact wf_set_child _ h i _ (ih k hk)

theorem lookup_add_word (t : Node) (h : t.wf = true) (w : List Nat) (hw : 0 ∉ w)
    (u : List Nat) (v : Int) (hl : lookup t u = some v) :
    lookup (trie_add_word t w).1 u = some v := by
  unfold lookup at hl ⊢
  cases hf : follow t u with
  | none => rw [hf] at hl; simp at hl
  | some n =>
    rw [hf] at hl
    simp only [Option.map_some', Option.some.injEq] at hl
    obtain ⟨n2, hn2, hv2⟩ := (follow_add_word w hw t h u).1 n hf
    rw [hn2]
    simp [hv2, hl]

theorem lookup_add_word_inv (t : Node) (h : t.wf = true) (w : List Nat) (hw : 0 ∉ w)
    (u : List Nat) (v : Int) (hl : lookup (trie_add_word t w).1 u = some v)
    (hv : v ≠ EMPTY_VALUE) : lookup t u = some v := by
  unfold lookup at hl ⊢
  cases hf2 : follow (trie_add_word t w).1 u with
  | none => rw [hf2] at hl; simp at hl
  | some n2 =>
    rw [hf2] at hl
    simp only [Option.map_some', Option.some.injEq] at hl
    cases hf : follow t u with
    | none =>
      have := (follow_add_word w hw t h u).2 hf n2 hf2
      rw [hl] at this
      exact absurd this hv
    | some n =>
      obtain ⟨n3, hn3, hv3⟩ := (follow_add_word w hw t h u).1 n hf
      rw [hf2] at hn3
      simp only [Option.some.injEq] at hn3
      subst hn3
      simp [← hv3, hl]

/-- The build loop of `_tmain` from any well-formed trie `t` and first index `s`: word
number `j` of the list is then found with value `s + j`, values found in `t` for strings
outside the list are kept, and the result is well formed. -/
theorem build_loop_spec (ws : List (List Nat)) :
    ∀ (t : Node) (s : Nat), t.wf = true → (∀ w ∈ ws, 0 ∉ w) → ws.Nodup →
    (build_loop t ws s).wf = true ∧
    (∀ (j : Nat) (w : List Nat), ws[j]? = some w →
      lookup (build_loop t ws s) w = some ((s + j : Nat) : Int)) ∧
    (∀ (u : List Nat) (v : Int), u ∉ ws → lookup t u = some v →
      lookup (build_loop t ws s) u = some v) := by
  induction ws with
  | nil =>
    intro t s h _ _
    exact ⟨h, fun j w hj => by simp at hj, fun u v _ hl => hl⟩
  | cons w ws ih =>
    intro t s h hz hnd
    have hw : 0 ∉ w := hz w (by simp)
    have hz2 : ∀ x ∈ ws, 0 ∉ x := fun x hx => hz x (by simp [hx])
    have hnd2 : ws.Nodup := (List.nodup_cons.mp hnd).2
    have hwn : w ∉ ws := (List.nodup_cons.mp hnd).1
    have hwf1 := wf_add_word w hw t h
    have hpath := add_word_path w hw t h
    have hwf2 := wf_set_value (trie_add_word t w).2 (s : Int) _ hwf1
    obtain ⟨i1, i2, i3⟩ := ih _ (s + 1) hwf2 hz2 hnd2
    simp only [build_loop]
    refine ⟨i1, ?_, ?_⟩
    · intro j x hj
      cases j with
      | zero =>
        simp only [List.getElem?_cons_zero, Option.some.injEq] at hj
        subst hj
        have := lookup_set_value _ w _ hpath (s : Int) w
        simp only [if_true] at this
        exact i3 w _ hwn this
      | succ j =>
        simp only [List.getElem?_cons_succ] at hj
        have := i2 j x hj
        rw [this]
        congr 2
        omega
    · intro u v hu hl
      have hne : u ≠ w := fun e => hu (by simp [e])
      have hu2 : u ∉ ws := fun e => hu (by simp [e])
      have h1 := lookup_add_word t h w hw u v hl
      have h2 := lookup_set_value _ w _ hpath (s : Int) u
      simp only [hne, if_false] at h2
      exact i3 u v hu2 (h2.trans h1)

/-- C5. Build then find: after inserting pairwise distinct non-empty words
`w_0 .. w_{n-1}` in order into an empty trie with `trie_add_word` and setting the value of
the node returned for `w_i` to `i`, `trie_find_word(root, w_i)` returns `i` for every
`i`. -/
theorem build_then_find (words : List (List Nat))
    (hwords : ∀ w ∈ words, w ≠ [] ∧ 0 ∉ w) (hnd : words.Nodup)
    (i : Nat) (w : List Nat) (hi : words[i]? = some w) :
    trie_find_word (some (build_loop _add_root_node words 0)) w = (i : Int) := by
  obtain ⟨h1, h2, _⟩ := build_loop_spec words _add_root_node 0 wf_empty
    (fun x hx => (hwords x hx).2) hnd
  have hw : 0 ∉ w := (hwords w (List.getElem?_mem hi)).2
  rw [find_word_nonneg_iff _ h1 w hw (i : Int) (by omega)]
  have := h2 i w hi
  simpa using this

/-- C5, on the word list of `_tmain`: word 7 is `"class"` and is found with value 7. -/
theorem build_then_find_witness :
    ((∀ w ∈ test_words, w ≠ [] ∧ 0 ∉ w) ∧ test_words.Nodup ∧
      test_words[7]? = some (cstr "class")) ∧
    trie_find_word (some (build_loop _add_root_node test_words 0)) (cstr "class") =
      ((7 : Nat) : Int) :=
  ⟨⟨by decide!, by decide!, by decide!⟩,
    build_then_find test_words (by decide!) (by decide!) 7 (cstr "class") (by decide!)⟩

/-- C9. Insertion never overwrites values: on any trie, for words `w` and `u`,
`trie_find_word(root, u)` succeeds with value `v` after `trie_add_word(root, w)` exactly
when it did before (a value found before is kept, and no string becomes found by the
insertion alone); and when `w` itself was found with value `v`, the node that
`trie_add_word(root, w)` returns carries `v`. -/
theorem add_word_keeps_values (t : Node) (hwf : t.wf = true) (w : List Nat) (hw : 0 ∉ w)
    (u : List Nat) (hu : 0 ∉ u) (v : Int) (hv : 0 ≤ v) :
    (trie_find_word (some t) u = v ↔ trie_find_word (some (trie_add_word t w).1) u = v) ∧
    (trie_find_word (some t) w = v →
      (node_at (trie_add_word t w).1 (trie_add_word t w).2).map Node.value = some v) := by
  have hwf1 := wf_add_word w hw t hwf
  refine ⟨?_, ?_⟩
  · rw [find_word_nonneg_iff t hwf u hu v hv, find_word_nonneg_iff _ hwf1 u hu v hv]
    constructor
    · exact lookup_add_word t hwf w hw u v
    · intro h
      exact lookup_add_word_inv t hwf w hw u v h (by unfold EMPTY_VALUE; omega)
  · intro h
    rw [find_word_nonneg_iff t hwf w hw v hv] at h
    rw [node_at_path _ w _ (add_word_path w hw t hwf)]
    exact lookup_add_word t hwf w hw w v h

/-- C9, on the trie of `_tmain`: re-adding `"class"` returns a node of value 7. -/
theorem add_word_keeps_values_witness :
    (test_trie.wf = true ∧ 0 ∉ cstr "class" ∧ (0 : Int) ≤ 7) ∧
    (node_at (trie_add_word test_trie (cstr "class")).1
      (trie_add_word test_trie (cstr "class")).2).map Node.value = some 7 ∧
    ((trie_find_word (some test_trie) (cstr "class") = 7 ↔
      trie_find_word (some (trie_add_word test_trie (cstr "class")).1) (cstr "class") = 7) ∧
    (trie_find_word (some test_trie) (cstr "class") = 7 →
      (node_at (trie_add_word test_trie (cstr "class")).1
        (trie_add_word test_trie (cstr "class")).2).map Node.value = some 7)) :=
  ⟨⟨by decide!, by decide, by decide⟩, by decide!,
    add_word_keeps_values test_trie (by decide!) (cstr "class") (by decide)
      (cstr "class") (by decide) 7 (by decide)⟩

theorem set_child_set_child (n : Node) (i : Nat) (k : Node) :
    set_child (set_child n i k) i k = set_child n i k := by
  cases n with
  | mk v cs ks =>
    cases ks with
    | none => rfl
    | some ks => simp [set_child]

/-- C10. Insertion is idempotent on structure: applying `trie_add_word(root, w)` a second
time leaves the tree (labels, their order, children and values of every node) exactly as
it was after the first application, and returns the same node. -/
theorem add_word_idempotent (w : List Nat) (hw : 0 ∉ w) (t : Node) (hwf : t.wf = true) :
    trie_add_word (trie_add_word t w).1 w = trie_add_word t w := by
  induction w generalizing t with
  | nil => rfl
  | cons c rest ih =>
    have hc : c ≠ 0 := fun e => hw (by simp [e])
    have hrest : 0 ∉ rest := fun e => hw (by simp [e])
    obtain ⟨n1, k, cs, hval, hcs, hm, hchild, hn1, hk, hother, hcase, heq⟩ :=
      add_word_cons t hwf c hc rest
    have hwf1 : (trie_add_word t (c :: rest)).1.wf = true := wf_add_word _ hw t hwf
    rw [heq] at hwf1 ⊢
    simp only at hwf1 ⊢
    obtain ⟨m1, k2, cs2, _, hcs2, hm2, hchild2, _, _, _, hcase2, heq2⟩ :=
      add_word_cons _ hwf1 c hc rest
    have hedge : (set_child n1 (cs.indexOf c) (trie_add_word k rest).1).edge c =
        some (trie_add_word k rest).1 := by
      rw [edge_set_child n1 cs hcs c hm k hchild]; simp
    rcases hcase2 with ⟨he, hm1⟩ | ⟨he, _⟩
    · rw [hedge] at he
      simp only [Option.some.injEq] at he
      subst hm1
      rw [set_child_choices, hcs] at hcs2
      simp only [Option.some.injEq] at hcs2
      subst hcs2
      rw [heq2, ← he, ih hrest k hk, set_child_set_child]
    · rw [hedge] at he
      simp at he

/-- C10, on the trie of `_tmain` and the word `"classic"`, which adds two nodes. -/
theorem add_word_idempotent_witness :
    (0 ∉ cstr "classic" ∧ test_trie.wf = true) ∧
    trie_add_word (trie_add_word test_trie (cstr "classic")).1 (cstr "classic") =
      trie_add_word test_trie (cstr "classic") :=
  ⟨⟨by decide, by decide!⟩,
    add_word_idempotent (cstr "classic") (by decide) test_trie (by decide!)⟩

/-! ## The codec -/

mutual
/-- Induction over the tree: a property holds of every node if it holds of a node
whenever it holds of all its children. -/
theorem node_induct (P : Node → Prop)
    (h : ∀ v cs ks, (∀ k ∈ Option.getD ks [], P k) → P (Node.mk v cs ks)) : ∀ n, P n
  | Node.mk v cs none => h v cs none (fun k hk => by simp at hk)
  | Node.mk v cs (some ks) => h v cs (some ks) (node_induct_list P h ks)
/-- Induction over the tree, for the children of a node. -/
theorem node_induct_list (P : Node → Prop)
    (h : ∀ v cs ks, (∀ k ∈ Option.getD ks [], P k) → P (Node.mk v cs ks)) :
    ∀ ks : List Node, ∀ k ∈ ks, P k
  | [] => fun k hk => by simp at hk
  | x :: xs => fun k hk => by
    rcases List.mem_cons.mp hk with e | e
    · rw [e]; exact node_induct P h x
    · exact node_induct_list P h xs k e
end

theorem read_uint_int_bytes (v : Int) (rest : List Nat) :
    read_uint (int_bytes v ++ rest) = some (v % 4294967296).toNat := by
  simp only [int_bytes, read_uint, List.cons_append, List.nil_append, Option.some.injEq]
  have : (v % 4294967296).toNat < 4294967296 := by omega
  omega

theorem read_int_int_bytes (v : Int) (h1 : -2147483648 ≤ v) (h2 : v < 2147483648)
    (rest : List Nat) : read_int (int_bytes v ++ rest) = some v := by
  simp only [read_int, read_uint_int_bytes, Option.map_some', Option.some.injEq]
  split <;> omega

theorem int_bytes_length (v : Int) : (int_bytes v).length = 4 := rfl

theorem drop_int_bytes (v : Int) (rest : List Nat) : (int_bytes v ++ rest).drop 4 = rest := by
  simp [int_bytes]

theorem cstring_at_append (cs : List Nat) (h : ∀ c ∈ cs, c ≠ 0) (rest : List Nat) :
    cstring_at (cs ++ 0 :: rest) = some cs := by
  induction cs with
  | nil => simp [cstring_at]
  | cons x xs ih =>
    have hx : x ≠ 0 := h x (by simp)
    have hxs := ih (fun c hc => h c (by simp [hc]))
    simp [cstring_at, hx, hxs]

/-- Round trip of the child loop, given the round trip of every child. -/
theorem load_save_loop (ks : List Node)
    (ih : ∀ k ∈ ks, canonical k = true → ∀ (fuel : Nat) (pos : LoadPosition) (rest : List Nat),
      (node_save k true).1 ≤ fuel →
      ∃ pos2, node_load fuel pos ((node_save k true).2 ++ rest) =
          some (k, pos2, (node_save k true).1) ∧
        pos2.root + 1 = pos.root + node_size k ∧
        pos2.chars + 4 * node_size k ≤ pos.chars + (node_save k true).1 ∧
        (node_save k true).2.length = (node_save k true).1 ∧
        (node_save k false).1 = (node_save k true).1 ∧ 5 ≤ (node_save k true).1)
    (hc : Node.all_list canon_node ks = true) :
    ∀ (fuel : Nat) (pos : LoadPosition) (rest : List Nat),
      (node_save.node_save_loop ks.length ks true).1 + 1 ≤ fuel →
      ∃ pos2, node_load_loop fuel ks.length pos
          ((node_save.node_save_loop ks.length ks true).2 ++ rest) =
          some (ks, pos2, (node_save.node_save_loop ks.length ks true).1) ∧
        pos2.root + ks.length = pos.root + node_size.node_size_loop ks.length ks ∧
        pos2.chars + 4 * node_size.node_size_loop ks.length ks ≤
          pos.chars + (node_save.node_save_loop ks.length ks true).1 ∧
        (node_save.node_save_loop ks.length ks true).2.length =
          (node_save.node_save_loop ks.length ks true).1 ∧
        (node_save.node_save_loop ks.length ks false).1 =
          (node_save.node_save_loop ks.length ks true).1 := by
  induction ks with
  | nil =>
    intro fuel pos rest _
    exact ⟨pos, by simp [node_load_loop, node_save.node_save_loop],
      by simp [node_size.node_size_loop],
      by simp [node_size.node_size_loop, node_save.node_save_loop],
      by simp [node_save.node_save_loop], by simp [node_save.node_save_loop]⟩
  | cons k ks ihl =>
    intro fuel pos rest hfuel
    simp only [Node.all_list, Bool.and_eq_true] at hc
    have hk := ih k (by simp) hc.1
    have hl := ihl (fun x hx => ih x (by simp [hx])) hc.2
    simp only [List.length_cons, node_save.node_save_loop, node_size.node_size_loop] at hfuel ⊢
    obtain ⟨f, rfl⟩ : ∃ f, fuel = f + 1 := ⟨fuel - 1, by omega⟩
    obtain ⟨pos1, a1, a2, a3, a4, a5, a6⟩ := hk f pos
      ((node_save.node_save_loop ks.length ks true).2 ++ rest) (by omega)
    obtain ⟨pos2, b1, b2, b3, b4, b5⟩ := hl f pos1 rest (by omega)
    refine ⟨pos2, ?_, by omega, by omega, ?_, ?_⟩
    · simp only [node_load_loop, List.append_assoc, a1]
      rw [← a4, List.drop_left, b1]
    · rw [List.length_append, a4, b4]
    · rw [a5, b5]

/-- Round trip of one node: `node_load` on the bytes `node_save` writes for a canonical
node returns that node and the same offset, advances the node cursor by the number of
descendants, and advances the character cursor by no more than the bytes that are not
values. -/
theorem load_save_node : ∀ n : Node, canonical n = true →
    ∀ (fuel : Nat) (pos : LoadPosition) (rest : List Nat),
      (node_save n true).1 ≤ fuel →
      ∃ pos2, node_load fuel pos ((node_save n true).2 ++ rest) =
          some (n, pos2, (node_save n true).1) ∧
        pos2.root + 1 = pos.root + node_size n ∧
        pos2.chars + 4 * node_size n ≤ pos.chars + (node_save n true).1 ∧
        (node_save n true).2.length = (node_save n true).1 ∧
        (node_save n false).1 = (node_save n true).1 ∧ 5 ≤ (node_save n true).1 := by
  apply node_induct
  intro v cs ks ih hcan fuel pos rest hfuel
  unfold canonical at hcan
  rw [all_mk] at hcan
  simp only [Bool.and_eq_true] at hcan
  obtain ⟨hnode, hkids⟩ := hcan
  simp only [canon_node, Node.value, Node.choices, Node.children, Bool.and_eq_true,
    decide_eq_true_eq] at hnode
  obtain ⟨⟨hv1, hv2⟩, hshape⟩ := hnode
  cases cs with
  | none =>
    cases ks with
    | some ks => simp at hshape
    | none =>
      simp only [node_save] at hfuel ⊢
      obtain ⟨f, rfl⟩ : ∃ f, fuel = f + 1 := ⟨fuel - 1, by omega⟩
      refine ⟨pos, ?_, by simp [node_size], by simp [node_size], by simp [int_bytes_length],
        trivial, by omega⟩
      simp [node_load, List.append_assoc, read_int_int_bytes v hv1 hv2, drop_int_bytes,
        cstring_at]
  | some cs =>
    cases ks with
    | none => simp at hshape
    | some ks =>
      simp only [Bool.and_eq_true, Bool.not_eq_true', beq_iff_eq, List.all_eq_true,
        decide_eq_true_eq] at hshape
      obtain ⟨⟨hne, hlen⟩, hchars⟩ := hshape
      have hnz : ∀ c ∈ cs, c ≠ 0 := fun c hc => by have := (hchars c hc).1; omega
      simp only [Option.getD_some] at ih hkids
      have hloop := load_save_loop ks (fun k hk => ih k hk) hkids
      rw [← hlen] at hloop
      simp only [node_save, node_size] at hfuel ⊢
      obtain ⟨f, rfl⟩ : ∃ f, fuel = f + 1 := ⟨fuel - 1, by omega⟩
      obtain ⟨pos2, b1, b2, b3, b4, b5⟩ := hloop f
        { chars := pos.chars + (cs.length + 1), root := pos.root + cs.length } rest (by omega)
      refine ⟨pos2, ?_, by simp only at b2; omega, by simp only at b3; omega, ?_, ?_, by omega⟩
      · cases cs with
        | nil => simp at hne
        | cons c cs2 =>
          have hstr : cstring_at ((c :: cs2) ++ 0 ::
              ((node_save.node_save_loop (c :: cs2).length ks true).2 ++ rest)) =
              some (c :: cs2) := cstring_at_append _ hnz _
          have hdrop : (int_bytes v ++ ((c :: cs2) ++ 0 ::
              ((node_save.node_save_loop (c :: cs2).length ks true).2 ++ rest))).drop
              (4 + ((c :: cs2).length + 1)) =
              (node_save.node_save_loop (c :: cs2).length ks true).2 ++ rest := by
            rw [← List.drop_drop, drop_int_bytes]
            have : (c :: cs2).length + 1 = ((c :: cs2) ++ [0]).length := by simp
            rw [this, ← List.drop_left ((c :: cs2) ++ [0])
              ((node_save.node_save_loop (c :: cs2).length ks true).2 ++ rest)]
            simp
          have hstream : (int_bytes v ++ (c :: cs2 ++ [0]) ++
              (node_save.node_save_loop (c :: cs2).length ks true).2) ++ rest =
              int_bytes v ++ ((c :: cs2) ++ 0 ::
              ((node_save.node_save_loop (c :: cs2).length ks true).2 ++ rest)) := by
            simp
          simp only [if_true]
          rw [hstream]
          simp only [node_load, read_int_int_bytes v hv1 hv2, drop_int_bytes, hstr, hdrop, b1]
      · simp only [if_true, List.length_append, int_bytes_length, b4]
        simp
      · simp [b5]

/-- The stream `trie_save` writes for a canonical trie whose length fits a C `int` is
accepted by `trie_load`, which returns the same tree. -/
theorem trie_load_save (t : Node) (hc : canonical t = true)
    (hsize : (trie_save t).size < 2147483648) :
    ∃ ft, trie_load (trie_save t).stream = Except.ok ft ∧ ft.root = t ∧
      (ft.node_count : Int) = (trie_save t).nodes ∧
      (ft.char_count : Int) = (trie_save t).chars := by
  obtain ⟨pos2, a1, a2, a3, a4, a5, a6⟩ := load_save_node t hc
    (12 + (node_save t true).1) { chars := 0, root := 1 } [] (by omega)
  simp only [List.append_nil] at a1 a2 a3
  simp only [trie_save] at hsize
  have hnodes : ((node_size t : Int) % 4294967296).toNat = node_size t := by omega
  have hchars : ((((node_save t false).1 : Int) - (node_size t : Int) * 4) %
      4294967296).toNat = (node_save t false).1 - 4 * node_size t := by omega
  have hlen : (trie_save t).stream.length = 12 + (node_save t true).1 := by
    simp only [trie_save, List.length_append, int_bytes_length, a4]
  have h0 : read_int (trie_save t).stream = some (((node_save t false).1 : Int) + 3 * 4) := by
    simp only [trie_save, List.append_assoc]
    exact read_int_int_bytes _ (by omega) (by omega) _
  have h1 : read_uint ((trie_save t).stream.drop 4) = some (node_size t) := by
    simp only [trie_save, List.append_assoc, drop_int_bytes, read_uint_int_bytes, hnodes]
  have h2 : read_uint ((trie_save t).stream.drop 8) =
      some ((node_save t false).1 - 4 * node_size t) := by
    have : (8 : Nat) = 4 + 4 := rfl
    rw [this, ← List.drop_drop]
    simp only [trie_save, List.append_assoc, drop_int_bytes, read_uint_int_bytes, hchars]
  have h3 : (trie_save t).stream.drop 12 = (node_save t true).2 := by
    have : (12 : Nat) = 4 + (4 + 4) := rfl
    rw [this, ← List.drop_drop, ← List.drop_drop]
    simp only [trie_save, List.append_assoc, drop_int_bytes]
  refine ⟨FrozenTrie.mk t (node_size t) ((node_save t false).1 - 4 * node_size t),
    ?_, rfl, ?_, ?_⟩
  · unfold trie_load
    rw [h0, h1, h2, h3, hlen, a1]
    simp only
    rw [if_neg (by omega), if_neg (by omega), if_neg (by omega)]
  · simp [trie_save]
  · simp only [trie_save]
    omega

theorem all_list_iff (p : Node → Bool) (ks : List Node) :
    Node.all_list p ks = true ↔ ∀ k ∈ ks, Node.all p k = true := by
  induction ks with
  | nil => simp [Node.all_list]
  | cons x xs ih => simp [Node.all_list, ih]

theorem all_imp (p q : Node → Bool) (h : ∀ n, p n = true → q n = true) :
    ∀ t : Node, Node.all p t = true → Node.all q t = true := by
  apply node_induct
  intro v cs ks ih hall
  rw [all_mk] at hall ⊢
  simp only [Bool.and_eq_true, all_list_iff] at hall ⊢
  exact ⟨h _ hall.1, fun k hk => ih k hk (hall.2 k hk)⟩

theorem canon_node_ok (n : Node) (h : canon_node n = true) : node_ok n = true := by
  cases n with
  | mk v cs ks =>
    cases cs with
    | none => simp [node_ok, Node.choices]
    | some cs =>
      cases ks with
      | none => simp [canon_node, Node.choices, Node.children] at h
      | some ks =>
        simp only [canon_node, Node.choices, Node.children, Bool.and_eq_true,
          beq_iff_eq] at h
        simp [node_ok, Node.choices, Node.children, h.2.1.2]

theorem canonical_wf (t : Node) (h : canonical t = true) : t.wf = true :=
  all_imp canon_node node_ok canon_node_ok t h

theorem all_add_choice (p : Node → Bool) (t : Node) (c : Nat) (h : Node.all p t = true)
    (hp : p (_add_choice t c).1 = true) (he : p (Node.mk EMPTY_VALUE none none) = true) :
    Node.all p (_add_choice t c).1 = true := by
  cases t with
  | mk v chs ks =>
    rw [all_mk] at h
    simp only [Bool.and_eq_true] at h
    have hempty : Node.all p (Node.mk EMPTY_VALUE none none) = true := by
      simpa [Node.all] using he
    cases ks with
    | none =>
      simp only [_add_choice] at hp ⊢
      simp only [Node.all, Node.all_list, List.nil_append, Bool.and_eq_true]
      exact ⟨hp, hempty, trivial⟩
    | some ks =>
      simp only [_add_choice] at hp ⊢
      simp only [Node.all, all_list_append, Node.all_list, Bool.and_eq_true]
      exact ⟨hp, all_list_take p ks (by simpa using h.2) _, hempty, trivial⟩

theorem canon_node_add_choice (t : Node) (h : canon_node t = true) (c : Nat)
    (hc : 0 < c ∧ c < 256) : canon_node (_add_choice t c).1 = true := by
  cases t with
  | mk v chs ks =>
    cases chs with
    | none =>
      cases ks with
      | some ks => simp [canon_node, Node.choices, Node.children] at h
      | none =>
        simp only [canon_node, Node.choices, Node.children, Node.value, Bool.and_eq_true,
          decide_eq_true_eq] at h
        simp [_add_choice, canon_node, Node.choices, Node.children, Node.value, h.1, hc]
    | some chs =>
      cases ks with
      | none => simp [canon_node, Node.choices, Node.children] at h
      | some ks =>
        simp only [canon_node, Node.choices, Node.children, Node.value, Bool.and_eq_true,
          decide_eq_true_eq, beq_iff_eq, List.all_eq_true] at h
        obtain ⟨hv, ⟨_, hlen⟩, hch⟩ := h
        simp only [_add_choice, canon_node, Node.choices, Node.children, Node.value,
          Bool.and_eq_true, decide_eq_true_eq, beq_iff_eq, List.all_eq_true]
        refine ⟨hv, ⟨by simp, by simp [hlen]⟩, ?_⟩
        intro x hx
        rcases List.mem_append.mp hx with hx | hx
        · exact hch x hx
        · simp only [List.mem_singleton] at hx
          subst hx
          exact hc

theorem canon_node_set_child (n : Node) (h : canon_node n = true) (i : Nat) (k : Node) :
    canon_node (set_child n i k) = true := by
  cases n with
  | mk v cs ks =>
    cases ks with
    | none => simpa [set_child] using h
    | some ks =>
      cases cs with
      | none => simp [canon_node, Node.choices, Node.children] at h
      | some cs =>
        simpa [set_child, canon_node, Node.choices, Node.children, Node.value] using h

theorem canonical_add_word (w : List Nat) (hw : ∀ c ∈ w, 0 < c ∧ c < 256) :
    ∀ t : Node, canonical t = true → canonical (trie_add_word t w).1 = true := by
  induction w with
  | nil => intro t h; simpa [trie_add_word] using h
  | cons c rest ih =>
    intro t h
    have hc : c ≠ 0 := by have := (hw c (by simp)).1; omega
    have hrest : ∀ x ∈ rest, 0 < x ∧ x < 256 := fun x hx => hw x (by simp [hx])
    obtain ⟨n1, k, cs, _, _, _, hchild, _, _, _, hcase, heq⟩ :=
      add_word_cons t (canonical_wf t h) c hc rest
    have hempty : canon_node (Node.mk EMPTY_VALUE none none) = true := by decide
    have hn1 : canonical n1 = true := by
      rcases hcase with ⟨_, e⟩ | ⟨_, _, e⟩
      · rw [e]; exact h
      · rw [e]
        exact all_add_choice canon_node t c h
          (canon_node_add_choice t (all_self canon_node t h) c (hw c (by simp))) hempty
    have hk : canonical k = true := all_child canon_node n1 hn1 _ k hchild
    rw [heq]
    exact all_set_child canon_node n1 hn1 _ _ (ih hrest k hk)
      (canon_node_set_child n1 (all_self canon_node n1 hn1) _ _)

theorem canonical_set_value (p : List Nat) (v : Int) (h1 : -2147483648 ≤ v)
    (h2 : v < 2147483648) :
    ∀ t : Node, canonical t = true → canonical (set_value t p v) = true := by
  induction p with
  | nil =>
    intro t h
    cases t with
    | mk v0 cs ks =>
      unfold canonical at h ⊢
      rw [all_mk] at h
      simp only [set_value]
      rw [all_mk]
      simp only [Bool.and_eq_true] at h ⊢
      refine ⟨?_, h.2⟩
      have := h.1
      simp only [canon_node, Node.value, Node.choices, Node.children, Bool.and_eq_true,
        decide_eq_true_eq] at this ⊢
      exact ⟨⟨h1, h2⟩, this.2⟩
  | cons i p ih =>
    intro t h
    cases hc : child_at t.children i with
    | none =>
      cases t with
      | mk v0 cs ks => simp only [set_value, hc]; exact h
    | some k =>
      have hk : canonical k = true := all_child canon_node t h i k hc
      cases t with
      | mk v0 cs ks =>
        simp only [set_value, hc]
        exact all_set_child canon_node _ h i _ (ih k hk)
          (canon_node_set_child _ (all_self canon_node _ h) _ _)

theorem canonical_build_from (ops : List (List Nat × Int))
    (hops : ∀ op ∈ ops, (∀ c ∈ op.1, 0 < c ∧ c < 256) ∧ 0 ≤ op.2 ∧ op.2 < 2147483648) :
    ∀ t : Node, canonical t = true → canonical (build_from t ops) = true := by
  induction ops with
  | nil => intro t h; exact h
  | cons op ops ih =>
    intro t h
    obtain ⟨hw, hv1, hv2⟩ := hops op (by simp)
    simp only [build_from]
    exact ih (fun o ho => hops o (by simp [ho])) _
      (canonical_set_value _ _ (by omega) hv2 _ (canonical_add_word op.1 hw t h))

/-- C1. Round trip: for every trie built from the empty trie by inserting a list of words
(of non-zero bytes) and assigning each returned node a non-negative `int`, whose stream
length fits a C `int`, `trie_load` accepts the stream `trie_save` produces, and the trie it
reconstructs gives, for every string, the same `trie_find_word` result and the same
`trie_find_prefixes` trace as the original. -/
theorem save_load_round_trip (ops : List (List Nat × Int))
    (hops : ∀ op ∈ ops, (∀ c ∈ op.1, 0 < c ∧ c < 256) ∧ 0 ≤ op.2 ∧ op.2 < 2147483648)
    (hsize : (trie_save (build_from _add_root_node ops)).size < 2147483648) :
    ∃ ft, trie_load (trie_save (build_from _add_root_node ops)).stream = Except.ok ft ∧
      ∀ s : List Nat,
        trie_find_word (some ft.root) s =
          trie_find_word (some (build_from _add_root_node ops)) s ∧
        trie_find_prefixes (some ft.root) s =
          trie_find_prefixes (some (build_from _add_root_node ops)) s := by
  have hc : canonical (build_from _add_root_node ops) = true :=
    canonical_build_from ops hops _ (by decide)
  obtain ⟨ft, h1, h2, _, _⟩ := trie_load_save _ hc hsize
  exact ⟨ft, h1, fun s => by rw [h2]; exact ⟨rfl, rfl⟩⟩

/-- C1, on the trie of `_tmain`: its stream has 1607 bytes for 266 nodes and 531
characters, and the theorem applied to its build loop. -/
theorem save_load_round_trip_witness :
    ((trie_save test_trie).size = 1607 ∧ (trie_save test_trie).nodes = 266 ∧
      (trie_save test_trie).chars = 531 ∧
      (trie_save (build_from _add_root_node test_ops)).stream = (trie_save test_trie).stream) ∧
    ((∀ op ∈ test_ops, (∀ c ∈ op.1, 0 < c ∧ c < 256) ∧ 0 ≤ op.2 ∧ op.2 < 2147483648) ∧
      (trie_save (build_from _add_root_node test_ops)).size < 2147483648) ∧
    ∃ ft, trie_load (trie_save (build_from _add_root_node test_ops)).stream = Except.ok ft ∧
      ∀ s : List Nat,
        trie_find_word (some ft.root) s =
          trie_find_word (some (build_from _add_root_node test_ops)) s ∧
        trie_find_prefixes (some ft.root) s =
          trie_find_prefixes (some (build_from _add_root_node test_ops)) s :=
  ⟨by decide!, ⟨by decide!, by decide!⟩,
    save_load_round_trip test_ops (by decide!) (by decide!)⟩

/-! ## The automaton walker -/

theorem char_of_int (c : Nat) (hc : c < 256) : (((c : Nat) : Int) % 256).toNat = c := by
  omega

/-- One call of `contains_char` with a character code other than NUL, at a well-formed
node: it follows the edge labelled `c` if there is one, and otherwise returns 0 and
leaves the position unchanged. -/
theorem contains_char_step (t : Node) (hwf : t.wf = true) (c : Nat) (hc : 0 < c ∧ c < 256) :
    contains_char (some (some t)) (c : Int) =
      match t.edge c with
      | some k => (1, some (some k))
      | none => (0, some (some t)) := by
  have hc0 : c ≠ 0 := by omega
  unfold contains_char
  simp only [char_of_int c hc.2]
  rcases code_step t hwf c hc0 with ⟨h1, h2⟩ | ⟨chs, h1, h2, h3⟩ | ⟨chs, i, kid, h1, h2, h3, h4⟩
  · simp [h1, h2]
  · simp [h1, h2, h3]
  · simp [h1, h2, h3, h4]

/-- C11, at the failing input. At the root of `one_word_trie` (labels `"a"`, one child),
which has no edge labelled NUL, `contains_char(state, 0)` returns 1 and moves the position
to `children + 1`, past the only child, where the embedding has the null pointer; the
code 97 (`'a'`) is followed and the code 98 (`'b'`) is refused, as the claim says. -/
theorem contains_char_nul :
    one_word_trie.wf = true ∧
    one_word_trie.choices = some [97] ∧
    (one_word_trie.edge 0).isSome = false ∧
    (contains_char (initialize_state (some one_word_trie)) 0).1 = 1 ∧
    (contains_char (initialize_state (some one_word_trie)) 0).2 =
      some (child_at one_word_trie.children 1) ∧
    (child_at one_word_trie.children 1).isSome = false ∧
    (contains_char (initialize_state (some one_word_trie)) 97).1 = 1 ∧
    (contains_char (initialize_state (some one_word_trie)) 98).1 = 0 :=
  ⟨by decide!, by decide!, by decide!, by decide!, rfl, by decide!, by decide!, by decide!⟩

/-- The calls of `walker_run` from a well-formed node: the first `walk_len` calls return
1, the next one (if any) returns 0, and when the whole string is followed the final
position is the node it reaches. -/
theorem walker_run_spec (s : List Nat) (hs : ∀ c ∈ s, 0 < c ∧ c < 256) :
    ∀ t : Node, t.wf = true →
    (walker_run (some (some t)) s).1.length = s.length ∧
    (∀ j, j < walk_len t s → (walker_run (some (some t)) s).1[j]? = some 1) ∧
    (walk_len t s < s.length →
      (walker_run (some (some t)) s).1[walk_len t s]? = some 0) ∧
    (∀ n, follow t s = some n → (walker_run (some (some t)) s).2 = some (some n)) := by
  induction s with
  | nil =>
    intro t _
    refine ⟨rfl, fun j hj => by simp [walk_len] at hj, fun h => by simp at h, ?_⟩
    intro n hn
    simp only [follow, Option.some.injEq] at hn
    subst hn
    rfl
  | cons c cs ih =>
    intro t hwf
    have hc := hs c (by simp)
    have hcs : ∀ x ∈ cs, 0 < x ∧ x < 256 := fun x hx => hs x (by simp [hx])
    have hstep := contains_char_step t hwf c hc
    simp only [walker_run, walk_len, follow, List.length_cons]
    cases he : t.edge c with
    | none =>
      rw [he] at hstep
      simp only at hstep
      rw [hstep]
      simp only
      have hlen : (walker_run (some (some t)) cs).1.length = cs.length :=
        (ih hcs t hwf).1
      refine ⟨by rw [hlen], fun j hj => by omega, fun _ => by simp, ?_⟩
      intro n hn
      simp at hn
    | some k =>
      rw [he] at hstep
      simp only at hstep
      rw [hstep]
      simp only
      obtain ⟨i1, i2, i3, i4⟩ := ih hcs k (wf_edge t hwf c k he)
      refine ⟨by rw [i1], ?_, ?_, i4⟩
      · intro j hj
        cases j with
        | zero => simp
        | succ j =>
          simp only [List.getElem?_cons_succ]
          exact i2 j (by omega)
      · intro hlt
        have e : 1 + walk_len k cs = walk_len k cs + 1 := by omega
        rw [e]
        simp only [List.getElem?_cons_succ]
        exact i3 (by omega)

theorem not_mem_zero_of_bytes (s : List Nat) (hs : ∀ c ∈ s, 0 < c ∧ c < 256) : 0 ∉ s :=
  fun h => by have := (hs 0 h).1; omega

/-- C19. Walker agrees with lookup: on a trie whose values are non-negative or `EMPTY`,
starting at the root and calling `contains_char` once per character of `s`, all calls
return 1 and `c_is_leaf` on the final position returns 1 exactly when
`trie_find_word(root, s)` is non-negative; and if the first call returning 0 is the one
for character index `m`, then `trie_find_word(root, s)` is the complement of `m`. -/
theorem walker_agrees_with_lookup (t : Node) (hwf : t.wf = true)
    (hval : values_ok t = true) (s : List Nat) (hs : ∀ c ∈ s, 0 < c ∧ c < 256) :
    (((∀ x ∈ (walker_run (initialize_state (some t)) s).1, x = 1) ∧
        c_is_leaf (walker_run (initialize_state (some t)) s).2 = 1) ↔
      0 ≤ trie_find_word (some t) s) ∧
    (∀ m : Nat, (walker_run (initialize_state (some t)) s).1[m]? = some 0 →
      (∀ j, j < m → (walker_run (initialize_state (some t)) s).1[j]? = some 1) →
      trie_find_word (some t) s = complement m) := by
  have h0 := not_mem_zero_of_bytes s hs
  obtain ⟨w1, w2, w3, w4⟩ := walker_run_spec s hs t hwf
  have hle := walk_len_le s t
  unfold initialize_state
  refine ⟨⟨?_, ?_⟩, ?_⟩
  · rintro ⟨hall, hleaf⟩
    have hfull : walk_len t s = s.length := by
      by_contra hne
      have hlt : walk_len t s < s.length := by omega
      have := hall 0 (List.getElem?_mem (w3 hlt))
      omega
    cases hf : follow t s with
    | none =>
      have := (follow_isSome_iff t s).mpr hfull
      rw [hf] at this
      simp at this
    | some n =>
      rw [w4 n hf] at hleaf
      have hne : n.value ≠ EMPTY_VALUE := by
        intro e
        simp [c_is_leaf, e] at hleaf
      have hge := values_ok_follow t hval s n hf
      rcases find_word_cases t hwf s h0 with ⟨n2, a1, a2, a3⟩ | ⟨a1, _⟩
      · rw [hf] at a1
        simp only [Option.some.injEq] at a1
        subst a1
        rw [a3]
        unfold EMPTY_VALUE at hge hne
        omega
      · exact absurd (a1 n hf) hne
  · intro hpos
    rcases find_word_cases t hwf s h0 with ⟨n, a1, a2, a3⟩ | ⟨_, a2⟩
    · have hfull : walk_len t s = s.length :=
        (follow_isSome_iff t s).mp (by simp [a1])
      refine ⟨?_, ?_⟩
      · intro x hx
        obtain ⟨j, hj, hjx⟩ := List.getElem_of_mem hx
        have := w2 j (by omega)
        rw [List.getElem?_eq_getElem hj, hjx] at this
        simpa using this
      · rw [w4 n a1]
        simp [c_is_leaf, a2]
    · have := complement_neg (walk_len t s)
      omega
  · intro m hm hbefore
    have hmlt : m < s.length := by
      have := (List.getElem?_eq_some.mp hm).1
      omega
    have hmw : m = walk_len t s := by
      rcases Nat.lt_trichotomy m (walk_len t s) with hlt | heq | hgt
      · have := w2 m hlt
        rw [hm] at this
        simp at this
      · exact heq
      · have a := w3 (by omega)
        have b := hbefore (walk_len t s) hgt
        rw [a] at b
        simp at b
    rcases find_word_cases t hwf s h0 with ⟨n, a1, _, _⟩ | ⟨_, a2⟩
    · have hfull : walk_len t s = s.length :=
        (follow_isSome_iff t s).mp (by simp [a1])
      omega
    · rw [a2, hmw]

/-- C19, on the trie of `_tmain`: the walker runs of `"class"` (found, value 7) and
`"apple"` (first refusal at index 1), and the theorem applied to `"apple"`. -/
theorem walker_agrees_with_lookup_witness :
    ((walker_run (initialize_state (some test_trie)) (cstr "class")).1 = [1, 1, 1, 1, 1] ∧
      c_is_leaf (walker_run (initialize_state (some test_trie)) (cstr "class")).2 = 1 ∧
      trie_find_word (some test_trie) (cstr "class") = 7 ∧
      (walker_run (initialize_state (some test_trie)) (cstr "apple")).1 = [1, 0, 0, 0, 0] ∧
      trie_find_word (some test_trie) (cstr "apple") = complement 1) ∧
    (test_trie.wf = true ∧ values_ok test_trie = true ∧
      ∀ c ∈ cstr "apple", 0 < c ∧ c < 256) ∧
    ((((∀ x ∈ (walker_run (initialize_state (some test_trie)) (cstr "apple")).1, x = 1) ∧
        c_is_leaf (walker_run (initialize_state (some test_trie)) (cstr "apple")).2 = 1) ↔
      0 ≤ trie_find_word (some test_trie) (cstr "apple")) ∧
    (∀ m : Nat,
      (walker_run (initialize_state (some test_trie)) (cstr "apple")).1[m]? = some 0 →
      (∀ j, j < m →
        (walker_run (initialize_state (some test_trie)) (cstr "apple")).1[j]? = some 1) →
      trie_find_word (some test_trie) (cstr "apple") = complement m)) :=
  ⟨by decide!, ⟨by decide!, by decide!, by decide⟩,
    walker_agrees_with_lookup test_trie (by decide!) (by decide!) (cstr "apple")
      (by decide)⟩

/-! ## The header of the stream -/

theorem save_counts_loop (ks : List Node)
    (ih : ∀ k ∈ ks, (node_save k true).1 = enc k ∧
      enc k = 4 * node_size k + label_bytes k ∧ label_bytes k + 1 = 2 * node_size k) :
    (node_save.node_save_loop ks.length ks true).1 = enc_list ks ∧
    enc_list ks = 4 * node_size.node_size_loop ks.length ks + label_bytes_list ks ∧
    label_bytes_list ks + ks.length = 2 * node_size.node_size_loop ks.length ks := by
  induction ks with
  | nil => simp [node_save.node_save_loop, node_size.node_size_loop, enc_list, label_bytes_list]
  | cons k ks ihl =>
    obtain ⟨a1, a2, a3⟩ := ih k (by simp)
    obtain ⟨b1, b2, b3⟩ := ihl (fun x hx => ih x (by simp [hx]))
    simp only [List.length_cons, node_save.node_save_loop, node_size.node_size_loop, enc_list,
      label_bytes_list]
    refine ⟨by omega, by omega, by omega⟩

/-- Counting the bytes `node_save` writes for a canonical tree: the returned offset is
the encoded length of the format, which is four bytes per node plus the label and
terminator bytes, and there is one such byte less than twice the number of nodes. -/
theorem save_counts : ∀ n : Node, canonical n = true →
    (node_save n true).1 = enc n ∧ enc n = 4 * node_size n + label_bytes n ∧
    label_bytes n + 1 = 2 * node_size n := by
  apply node_induct
  intro v cs ks ih hcan
  unfold canonical at hcan
  rw [all_mk] at hcan
  simp only [Bool.and_eq_true, all_list_iff] at hcan
  obtain ⟨hnode, hkids⟩ := hcan
  simp only [canon_node, Node.value, Node.choices, Node.children, Bool.and_eq_true,
    decide_eq_true_eq] at hnode
  obtain ⟨_, hshape⟩ := hnode
  cases cs with
  | none =>
    cases ks with
    | some ks => simp at hshape
    | none => simp [node_save, enc, node_size, label_bytes]
  | some cs =>
    cases ks with
    | none => simp at hshape
    | some ks =>
      simp only [Bool.and_eq_true, Bool.not_eq_true', beq_iff_eq, List.all_eq_true,
        decide_eq_true_eq] at hshape
      obtain ⟨⟨_, hlen⟩, _⟩ := hshape
      simp only [Option.getD_some] at ih hkids
      obtain ⟨b1, b2, b3⟩ := save_counts_loop ks (fun k hk => ih k hk (hkids k hk))
      rw [← hlen] at b1 b2 b3
      simp only [node_save, enc, node_size, label_bytes, Option.getD_some]
      refine ⟨by omega, by omega, by omega⟩

/-- The result of `node_load` on the bytes `trie_save` places after the header. -/
theorem node_load_saved (t : Node) (hc : canonical t = true) :
    ∃ lp, node_load (12 + (node_save t true).2.length) { chars := 0, root := 1 }
        (node_save t true).2 = some (t, lp, (node_save t true).1) ∧
      lp.root = node_size t ∧ lp.chars + 4 * node_size t ≤ (node_save t true).1 ∧
      (node_save t true).2.length = (node_save t true).1 ∧
      (node_save t false).1 = (node_save t true).1 := by
  obtain ⟨lp, a1, a2, a3, a4, a5, _⟩ := load_save_node t hc
    (12 + (node_save t true).1) { chars := 0, root := 1 } [] (by omega)
  simp only [List.append_nil] at a1 a2 a3
  refine ⟨lp, ?_, by omega, by omega, a4, a5⟩
  rw [a4]
  exact a1

/-- What `trie_load` does on a stream with the header fields `a`, `b`, `c` once the
result of `node_load` on the rest is known. -/
theorem trie_load_stream (a b c : Int) (ha1 : -2147483648 ≤ a) (ha2 : a < 2147483648)
    (body : List Nat) (root : Node) (lp : LoadPosition) (off : Nat)
    (hload : node_load (12 + body.length) { chars := 0, root := 1 } body =
      some (root, lp, off)) :
    trie_load (int_bytes a ++ (int_bytes b ++ (int_bytes c ++ body))) =
      if a - (off : Int) ≠ 12 then Except.error LoadError.size_check
      else if ¬ ((c % 4294967296).toNat ≥ lp.chars) then Except.error LoadError.char_check
      else if (b % 4294967296).toNat ≠ lp.root then Except.error LoadError.node_check
      else Except.ok (FrozenTrie.mk root (b % 4294967296).toNat (c % 4294967296).toNat) := by
  have h0 : read_int (int_bytes a ++ (int_bytes b ++ (int_bytes c ++ body))) = some a :=
    read_int_int_bytes a ha1 ha2 _
  have h1 : read_uint ((int_bytes a ++ (int_bytes b ++ (int_bytes c ++ body))).drop 4) =
      some (b % 4294967296).toNat := by
    rw [drop_int_bytes, read_uint_int_bytes]
  have h2 : read_uint ((int_bytes a ++ (int_bytes b ++ (int_bytes c ++ body))).drop 8) =
      some (c % 4294967296).toNat := by
    have : (8 : Nat) = 4 + 4 := rfl
    rw [this, ← List.drop_drop, drop_int_bytes, drop_int_bytes, read_uint_int_bytes]
  have h3 : (int_bytes a ++ (int_bytes b ++ (int_bytes c ++ body))).drop 12 = body := by
    have : (12 : Nat) = 4 + (4 + 4) := rfl
    rw [this, ← List.drop_drop, ← List.drop_drop, drop_int_bytes, drop_int_bytes,
      drop_int_bytes]
  have hlen : (int_bytes a ++ (int_bytes b ++ (int_bytes c ++ body))).length =
      12 + body.length := by
    simp only [List.length_append, int_bytes_length]
    omega
  unfold trie_load
  rw [h0, h1, h2, h3, hlen, hload]

theorem trie_save_stream (t : Node) :
    (trie_save t).stream =
      int_bytes (trie_save t).size ++ (int_bytes (trie_save t).nodes ++
        (int_bytes (trie_save t).chars ++ (node_save t true).2)) := by
  simp [trie_save, List.append_assoc]

theorem write_int_zero (a b c v : Int) (body : List Nat) :
    write_int (int_bytes a ++ (int_bytes b ++ (int_bytes c ++ body))) 0 v =
      int_bytes v ++ (int_bytes b ++ (int_bytes c ++ body)) := by
  simp [write_int, drop_int_bytes]

theorem write_int_eight (a b c v : Int) (body : List Nat) :
    write_int (int_bytes a ++ (int_bytes b ++ (int_bytes c ++ body))) 8 v =
      int_bytes a ++ (int_bytes b ++ (int_bytes v ++ body)) := by
  have h12 : (int_bytes a ++ (int_bytes b ++ (int_bytes c ++ body))).drop (8 + 4) = body := by
    have : (8 + 4 : Nat) = 4 + (4 + 4) := rfl
    rw [this, ← List.drop_drop, ← List.drop_drop, drop_int_bytes, drop_int_bytes,
      drop_int_bytes]
  have h8 : (int_bytes a ++ (int_bytes b ++ (int_bytes c ++ body))).take 8 =
      int_bytes a ++ int_bytes b := by
    simp [int_bytes]
  unfold write_int
  rw [h12, h8]
  simp [List.append_assoc]

theorem canonical_build_int (ops : List (List Nat × Int))
    (hops : ∀ op ∈ ops, (∀ c ∈ op.1, 0 < c ∧ c < 256) ∧
      -2147483648 ≤ op.2 ∧ op.2 < 2147483648) :
    ∀ t : Node, canonical t = true → canonical (build_from t ops) = true := by
  induction ops with
  | nil => intro t h; exact h
  | cons op ops ih =>
    intro t h
    obtain ⟨hw, hv1, hv2⟩ := hops op (by simp)
    simp only [build_from]
    exact ih (fun o ho => hops o (by simp [ho])) _
      (canonical_set_value _ _ hv1 hv2 _ (canonical_add_word op.1 hw t h))

/-- C12. Corrupt total length is rejected: for every trie built by insertion, if the
`total_length` field of the stream `trie_save` produced is overwritten by any different
`int`, `trie_load` stops at its check `size == 12`. -/
theorem corrupt_total_length (ops : List (List Nat × Int))
    (hops : ∀ op ∈ ops, (∀ c ∈ op.1, 0 < c ∧ c < 256) ∧
      -2147483648 ≤ op.2 ∧ op.2 < 2147483648)
    (v : Int) (hv1 : -2147483648 ≤ v) (hv2 : v < 2147483648)
    (hne : v ≠ (trie_save (build_from _add_root_node ops)).size) :
    trie_load (write_int (trie_save (build_from _add_root_node ops)).stream 0 v) =
      Except.error LoadError.size_check := by
  have hc : canonical (build_from _add_root_node ops) = true :=
    canonical_build_int ops hops _ (by decide)
  obtain ⟨lp, a1, a2, a3, a4, a5⟩ := node_load_saved _ hc
  rw [trie_save_stream, write_int_zero, trie_load_stream v _ _ hv1 hv2 _ _ lp _ a1]
  have hsz : (trie_save (build_from _add_root_node ops)).size =
      ((node_save (build_from _add_root_node ops) false).1 : Int) + 3 * 4 := rfl
  rw [if_pos]
  rw [hsz] at hne
  omega

/-- C12, on the two-word trie `small_ops`: the true total length 35 shortened by one. -/
theorem corrupt_total_length_witness :
    ((trie_save (build_from _add_root_node small_ops)).size - 1 = 34) ∧
    ((∀ op ∈ small_ops, (∀ c ∈ op.1, 0 < c ∧ c < 256) ∧
        -2147483648 ≤ op.2 ∧ op.2 < 2147483648) ∧
      (-2147483648 : Int) ≤ 34 ∧ (34 : Int) < 2147483648 ∧
      (34 : Int) ≠ (trie_save (build_from _add_root_node small_ops)).size) ∧
    trie_load (write_int (trie_save (build_from _add_root_node small_ops)).stream 0 34) =
      Except.error LoadError.size_check :=
  ⟨by decide!, ⟨by decide!, by decide, by decide, by decide!⟩,
    corrupt_total_length small_ops (by decide!) 34 (by decide) (by decide) (by decide!)⟩

/-- C13, as amended. `trie_load` does not require the declared character count to agree
with the number of characters decoding consumes; its check is
`char_count >= char_offset`.  For every trie built by insertion whose stream length fits
a C `int`, if the `char_count` field of the stream `trie_save` produced is overwritten by
any value that is at least the number of characters decoding consumes, `trie_load`
accepts the stream and returns a trie with that `char_count`; the value `trie_save`
itself writes is at least the number consumed. -/
theorem char_count_check (ops : List (List Nat × Int))
    (hops : ∀ op ∈ ops, (∀ c ∈ op.1, 0 < c ∧ c < 256) ∧
      -2147483648 ≤ op.2 ∧ op.2 < 2147483648)
    (hsize : (trie_save (build_from _add_root_node ops)).size < 2147483648)
    (c : Nat) (hc : c < 4294967296) :
    ∃ (root : Node) (lp : LoadPosition) (off : Nat),
      node_load (trie_save (build_from _add_root_node ops)).stream.length
        { chars := 0, root := 1 }
        ((trie_save (build_from _add_root_node ops)).stream.drop 12) =
        some (root, lp, off) ∧
      (lp.chars ≤ c →
        ∃ ft, trie_load
          (write_int (trie_save (build_from _add_root_node ops)).stream 8 (c : Int)) =
          Except.ok ft ∧ ft.char_count = c) ∧
      (lp.chars : Int) ≤ (trie_save (build_from _add_root_node ops)).chars := by
  have hcan : canonical (build_from _add_root_node ops) = true :=
    canonical_build_int ops hops _ (by decide)
  obtain ⟨lp, a1, a2, a3, a4, a5⟩ := node_load_saved _ hcan
  have hsz : (trie_save (build_from _add_root_node ops)).size =
      ((node_save (build_from _add_root_node ops) false).1 : Int) + 3 * 4 := rfl
  have hnd : (trie_save (build_from _add_root_node ops)).nodes =
      (node_size (build_from _add_root_node ops) : Int) := rfl
  have hch : (trie_save (build_from _add_root_node ops)).chars =
      ((node_save (build_from _add_root_node ops) false).1 : Int) -
        (node_size (build_from _add_root_node ops) : Int) * 4 := rfl
  rw [hsz] at hsize
  have hlen : (trie_save (build_from _add_root_node ops)).stream.length =
      12 + (node_save (build_from _add_root_node ops) true).2.length := by
    rw [trie_save_stream]
    simp only [List.length_append, int_bytes_length]
    omega
  have hdrop : (trie_save (build_from _add_root_node ops)).stream.drop 12 =
      (node_save (build_from _add_root_node ops) true).2 := by
    rw [trie_save_stream]
    have : (12 : Nat) = 4 + (4 + 4) := rfl
    rw [this, ← List.drop_drop, ← List.drop_drop, drop_int_bytes, drop_int_bytes,
      drop_int_bytes]
  have hcn : (((c : Nat) : Int) % 4294967296).toNat = c := by omega
  refine ⟨_, lp, _, by rw [hlen, hdrop]; exact a1, ?_, by rw [hch]; omega⟩
  intro hle
  rw [trie_save_stream, write_int_eight,
    trie_load_stream _ _ _ (by rw [hsz]; omega) (by rw [hsz]; omega) _ _ lp _ a1]
  rw [if_neg (by rw [hsz]; omega), if_neg (by rw [hcn]; omega),
    if_neg (by rw [hnd]; omega)]
  exact ⟨_, rfl, hcn⟩

/-- C13, on the two-word trie `small_ops`, with the declared character count 1000. -/
theorem char_count_check_witness :
    ((∀ op ∈ small_ops, (∀ c ∈ op.1, 0 < c ∧ c < 256) ∧
        -2147483648 ≤ op.2 ∧ op.2 < 2147483648) ∧
      (trie_save (build_from _add_root_node small_ops)).size < 2147483648 ∧
      1000 < 4294967296) ∧
    ∃ (root : Node) (lp : LoadPosition) (off : Nat),
      node_load (trie_save (build_from _add_root_node small_ops)).stream.length
        { chars := 0, root := 1 }
        ((trie_save (build_from _add_root_node small_ops)).stream.drop 12) =
        some (root, lp, off) ∧
      (lp.chars ≤ 1000 →
        ∃ ft, trie_load (write_int (trie_save (build_from _add_root_node small_ops)).stream 8
          ((1000 : Nat) : Int)) = Except.ok ft ∧ ft.char_count = 1000) ∧
      (lp.chars : Int) ≤ (trie_save (build_from _add_root_node small_ops)).chars :=
  ⟨⟨by decide!, by decide!, by decide⟩,
    char_count_check small_ops (by decide!) (by decide!) 1000 (by decide)⟩

/-- C13 as stated fails: decoding the stream of the two-word trie `small_ops` (four
nodes) consumes 5 characters; the stream declares 7, which `trie_load` accepts, and with
the declared count overwritten by 1000, which disagrees with 5 as well, `trie_load` still
returns a trie, of `char_count` 1000. -/
theorem char_count_check_counterexample :
    (node_load (trie_save (build_from _add_root_node small_ops)).stream.length
        { chars := 0, root := 1 }
        ((trie_save (build_from _add_root_node small_ops)).stream.drop 12)).map
      (fun r => r.2.1.chars) = some 5 ∧
    read_uint ((trie_save (build_from _add_root_node small_ops)).stream.drop 8) = some 7 ∧
    (trie_load (trie_save (build_from _add_root_node small_ops)).stream).toOption.map
      (fun f => f.char_count) = some 7 ∧
    (trie_load (write_int (trie_save (build_from _add_root_node small_ops)).stream 8
      1000)).toOption.map (fun f => f.char_count) = some 1000 := by
  decide!

/-- C15. Header character count: for every trie built by insertion with
`N = node_size(root)` nodes, `trie_save` sets `nodes = N` and `chars = 2 * N - 1`, where
`chars` is the encoded byte length of the root minus `4 * N` and is the number of
edge-label bytes plus terminator bytes of all nodes. -/
theorem header_char_count (ops : List (List Nat × Int))
    (hops : ∀ op ∈ ops, (∀ c ∈ op.1, 0 < c ∧ c < 256) ∧
      -2147483648 ≤ op.2 ∧ op.2 < 2147483648) :
    (trie_save (build_from _add_root_node ops)).nodes =
      (node_size (build_from _add_root_node ops) : Int) ∧
    (trie_save (build_from _add_root_node ops)).chars =
      2 * (node_size (build_from _add_root_node ops) : Int) - 1 ∧
    (trie_save (build_from _add_root_node ops)).chars =
      ((node_save (build_from _add_root_node ops) false).1 : Int) -
        4 * (node_size (build_from _add_root_node ops) : Int) ∧
    (trie_save (build_from _add_root_node ops)).chars =
      (label_bytes (build_from _add_root_node ops) : Int) := by
  have hc : canonical (build_from _add_root_node ops) = true :=
    canonical_build_int ops hops _ (by decide)
  obtain ⟨lp, _, _, _, _, a5⟩ := node_load_saved _ hc
  obtain ⟨b1, b2, b3⟩ := save_counts _ hc
  have hch : (trie_save (build_from _add_root_node ops)).chars =
      ((node_save (build_from _add_root_node ops) false).1 : Int) -
        (node_size (build_from _add_root_node ops) : Int) * 4 := rfl
  refine ⟨rfl, ?_, ?_, ?_⟩ <;> rw [hch] <;> omega

/-- C15, on the trie of `_tmain`: 266 nodes and 531 characters. -/
theorem header_char_count_witness :
    ((trie_save (build_from _add_root_node test_ops)).nodes = 266 ∧
      (trie_save (build_from _add_root_node test_ops)).chars = 531 ∧
      label_bytes (build_from _add_root_node test_ops) = 531) ∧
    (∀ op ∈ test_ops, (∀ c ∈ op.1, 0 < c ∧ c < 256) ∧
        -2147483648 ≤ op.2 ∧ op.2 < 2147483648) ∧
    ((trie_save (build_from _add_root_node test_ops)).nodes =
      (node_size (build_from _add_root_node test_ops) : Int) ∧
    (trie_save (build_from _add_root_node test_ops)).chars =
      2 * (node_size (build_from _add_root_node test_ops) : Int) - 1 ∧
    (trie_save (build_from _add_root_node test_ops)).chars =
      ((node_save (build_from _add_root_node test_ops) false).1 : Int) -
        4 * (node_size (build_from _add_root_node test_ops) : Int) ∧
    (trie_save (build_from _add_root_node test_ops)).chars =
      (label_bytes (build_from _add_root_node test_ops) : Int)) :=
  ⟨by decide!, by decide!, header_char_count test_ops (by decide!)⟩

/-- C16. Stream length: for every trie built by insertion, the `size` that `trie_save`
records is the number of bytes of the stream, namely `12 + enc(root)` with
`enc(n) = 4 + (k + 1) + ` the sum of `enc` over the `k` children of `n`; the measuring
call `node_save(root, NULL)` and the writing call `node_save(root, stream)` return the
same length, which is the number of bytes written; and when the length fits a C `int`,
the `total_length` field read back from the stream is that length. -/
theorem stream_length (ops : List (List Nat × Int))
    (hops : ∀ op ∈ ops, (∀ c ∈ op.1, 0 < c ∧ c < 256) ∧
      -2147483648 ≤ op.2 ∧ op.2 < 2147483648) :
    (trie_save (build_from _add_root_node ops)).size =
      ((trie_save (build_from _add_root_node ops)).stream.length : Int) ∧
    (trie_save (build_from _add_root_node ops)).stream.length =
      12 + enc (build_from _add_root_node ops) ∧
    (node_save (build_from _add_root_node ops) false).1 =
      (node_save (build_from _add_root_node ops) true).1 ∧
    (node_save (build_from _add_root_node ops) true).2.length =
      (node_save (build_from _add_root_node ops) true).1 ∧
    ((trie_save (build_from _add_root_node ops)).size < 2147483648 →
      read_int (trie_save (build_from _add_root_node ops)).stream =
        some ((trie_save (build_from _add_root_node ops)).stream.length : Int)) := by
  have hc : canonical (build_from _add_root_node ops) = true :=
    canonical_build_int ops hops _ (by decide)
  obtain ⟨lp, _, _, _, a4, a5⟩ := node_load_saved _ hc
  obtain ⟨b1, _, _⟩ := save_counts _ hc
  have hsz : (trie_save (build_from _add_root_node ops)).size =
      ((node_save (build_from _add_root_node ops) false).1 : Int) + 3 * 4 := rfl
  have hlen : (trie_save (build_from _add_root_node ops)).stream.length =
      12 + (node_save (build_from _add_root_node ops) true).2.length := by
    rw [trie_save_stream]
    simp only [List.length_append, int_bytes_length]
    omega
  refine ⟨by rw [hsz, hlen]; omega, by rw [hlen]; omega, a5, a4, ?_⟩
  intro hlt
  have hsl : ((trie_save (build_from _add_root_node ops)).stream.length : Int) =
      (trie_save (build_from _add_root_node ops)).size := by rw [hsz, hlen]; omega
  rw [hsl, trie_save_stream]
  exact read_int_int_bytes _ (by rw [hsz]; omega) hlt _

/-- C16, on the two-word trie `small_ops`: a stream of 35 bytes. -/
theorem stream_length_witness :
    ((trie_save (build_from _add_root_node small_ops)).stream.length = 35 ∧
      enc (build_from _add_root_node small_ops) = 23 ∧
      read_int (trie_save (build_from _add_root_node small_ops)).stream = some 35) ∧
    (∀ op ∈ small_ops, (∀ c ∈ op.1, 0 < c ∧ c < 256) ∧
        -2147483648 ≤ op.2 ∧ op.2 < 2147483648) ∧
    ((trie_save (build_from _add_root_node small_ops)).size =
      ((trie_save (build_from _add_root_node small_ops)).stream.length : Int) ∧
    (trie_save (build_from _add_root_node small_ops)).stream.length =
      12 + enc (build_from _add_root_node small_ops) ∧
    (node_save (build_from _add_root_node small_ops) false).1 =
      (node_save (build_from _add_root_node small_ops) true).1 ∧
    (node_save (build_from _add_root_node small_ops) true).2.length =
      (node_save (build_from _add_root_node small_ops) true).1 ∧
    ((trie_save (build_from _add_root_node small_ops)).size < 2147483648 →
      read_int (trie_save (build_from _add_root_node small_ops)).stream =
        some ((trie_save (build_from _add_root_node small_ops)).stream.length : Int))) :=
  ⟨by decide!, by decide!, stream_length small_ops (by decide!)⟩

/-- C17. Load accepts every saved stream: for every trie built by insertion whose stream
length fits a C `int`, `trie_load` on the stream `trie_save` produced passes its three
checks: the bytes `node_load` consumed plus 12 are the declared total length, the final
node cursor is `node_count`, the final character cursor does not exceed `char_count`;
and it returns a trie. -/
theorem load_accepts_saved (ops : List (List Nat × Int))
    (hops : ∀ op ∈ ops, (∀ c ∈ op.1, 0 < c ∧ c < 256) ∧
      -2147483648 ≤ op.2 ∧ op.2 < 2147483648)
    (hsize : (trie_save (build_from _add_root_node ops)).size < 2147483648) :
    ∃ (size : Int) (node_count char_count : Nat) (root : Node) (lp : LoadPosition)
      (off : Nat),
      read_int (trie_save (build_from _add_root_node ops)).stream = some size ∧
      read_uint ((trie_save (build_from _add_root_node ops)).stream.drop 4) =
        some node_count ∧
      read_uint ((trie_save (build_from _add_root_node ops)).stream.drop 8) =
        some char_count ∧
      node_load (trie_save (build_from _add_root_node ops)).stream.length
        { chars := 0, root := 1 }
        ((trie_save (build_from _add_root_node ops)).stream.drop 12) =
        some (root, lp, off) ∧
      (off : Int) + 12 = size ∧ lp.root = node_count ∧ lp.chars ≤ char_count ∧
      ∃ ft, trie_load (trie_save (build_from _add_root_node ops)).stream = Except.ok ft := by
  have hcan : canonical (build_from _add_root_node ops) = true :=
    canonical_build_int ops hops _ (by decide)
  obtain ⟨lp, a1, a2, a3, a4, a5⟩ := node_load_saved _ hcan
  obtain ⟨ft, hft, _⟩ := trie_load_save _ hcan hsize
  have hsz : (trie_save (build_from _add_root_node ops)).size =
      ((node_save (build_from _add_root_node ops) false).1 : Int) + 3 * 4 := rfl
  have hnd : (trie_save (build_from _add_root_node ops)).nodes =
      (node_size (build_from _add_root_node ops) : Int) := rfl
  have hch : (trie_save (build_from _add_root_node ops)).chars =
      ((node_save (build_from _add_root_node ops) false).1 : Int) -
        (node_size (build_from _add_root_node ops) : Int) * 4 := rfl
  have hsize2 := hsize
  rw [hsz] at hsize2
  have hlen : (trie_save (build_from _add_root_node ops)).stream.length =
      12 + (node_save (build_from _add_root_node ops) true).2.length := by
    rw [trie_save_stream]
    simp only [List.length_append, int_bytes_length]
    omega
  have h0 : read_int (trie_save (build_from _add_root_node ops)).stream =
      some (trie_save (build_from _add_root_node ops)).size := by
    rw [trie_save_stream]
    exact read_int_int_bytes _ (by rw [hsz]; omega) hsize _
  have h1 : read_uint ((trie_save (build_from _add_root_node ops)).stream.drop 4) =
      some ((trie_save (build_from _add_root_node ops)).nodes % 4294967296).toNat := by
    rw [trie_save_stream, drop_int_bytes, read_uint_int_bytes]
  have h2 : read_uint ((trie_save (build_from _add_root_node ops)).stream.drop 8) =
      some ((trie_save (build_from _add_root_node ops)).chars % 4294967296).toNat := by
    have : (8 : Nat) = 4 + 4 := rfl
    rw [trie_save_stream, this, ← List.drop_drop, drop_int_bytes, drop_int_bytes,
      read_uint_int_bytes]
  have h3 : (trie_save (build_from _add_root_node ops)).stream.drop 12 =
      (node_save (build_from _add_root_node ops) true).2 := by
    have : (12 : Nat) = 4 + (4 + 4) := rfl
    rw [trie_save_stream, this, ← List.drop_drop, ← List.drop_drop, drop_int_bytes,
      drop_int_bytes, drop_int_bytes]
  refine ⟨_, _, _, _, lp, _, h0, h1, h2, by rw [hlen, h3]; exact a1, ?_, ?_, ?_,
    ft, hft⟩
  · rw [hsz]; omega
  · rw [hnd]; omega
  · rw [hch]; omega

/-- C17, on the two-word trie `small_ops`. -/
theorem load_accepts_saved_witness :
    ((∀ op ∈ small_ops, (∀ c ∈ op.1, 0 < c ∧ c < 256) ∧
        -2147483648 ≤ op.2 ∧ op.2 < 2147483648) ∧
      (trie_save (build_from _add_root_node small_ops)).size < 2147483648) ∧
    ∃ (size : Int) (node_count char_count : Nat) (root : Node) (lp : LoadPosition)
      (off : Nat),
      read_int (trie_save (build_from _add_root_node small_ops)).stream = some size ∧
      read_uint ((trie_save (build_from _add_root_node small_ops)).stream.drop 4) =
        some node_count ∧
      read_uint ((trie_save (build_from _add_root_node small_ops)).stream.drop 8) =
        some char_count ∧
      node_load (trie_save (build_from _add_root_node small_ops)).stream.length
        { chars := 0, root := 1 }
        ((trie_save (build_from _add_root_node small_ops)).stream.drop 12) =
        some (root, lp, off) ∧
      (off : Int) + 12 = size ∧ lp.root = node_count ∧ lp.chars ≤ char_count ∧
      ∃ ft, trie_load (trie_save (build_from _add_root_node small_ops)).stream =
        Except.ok ft :=
  ⟨⟨by decide!, by decide!⟩, load_accepts_saved small_ops (by decide!) (by decide!)⟩

/-! ## Range and bounds of the split finder -/

/-- C14, as amended. Every split index `i` in the result of `trie_find_splits` satisfies
`0 ≤ i ≤ length(key)`; `i ≥ 1` when the root of the prefix trie has the value `EMPTY`
(the empty word is not in the prefix trie), and `i < length(key)` when the root of the
suffix trie has the value `EMPTY`. -/
theorem split_index_range (pt st : Node) (hp : pt.wf = true) (hs : st.wf = true)
    (key : List Nat) (hk : 0 ∉ key) (k : Nat)
    (hcount : (k : Int) < (trie_find_splits (some pt) (some st) key).headD 0) :
    ∃ i : Nat, (trie_find_splits (some pt) (some st) key)[3 * k + 1]? = some (i : Int) ∧
      i ≤ key.length ∧
      (pt.value = EMPTY_VALUE → 1 ≤ i) ∧
      (st.value = EMPTY_VALUE → i < key.length) := by
  rw [splits_count] at hcount
  have hlt : k < (find_splits_loop (trie_find_prefixes (some pt) key)
      (trie_find_prefixes (some st) key.reverse) key.length
      ((trie_find_prefixes (some pt) key).headD 0)
      ((trie_find_prefixes (some st) key.reverse).headD 0)).length := by omega
  obtain ⟨t, ht⟩ : ∃ t, (find_splits_loop (trie_find_prefixes (some pt) key)
      (trie_find_prefixes (some st) key.reverse) key.length
      ((trie_find_prefixes (some pt) key).headD 0)
      ((trie_find_prefixes (some st) key.reverse).headD 0))[k]? = some t :=
    ⟨_, List.getElem?_eq_getElem hlt⟩
  obtain ⟨g1, _, _⟩ := splits_get (some pt) (some st) key k t ht
  obtain ⟨i, e1, e2, e3, e4, e5, e6, e7⟩ :=
    (splits_mem pt st hp hs key hk t).mp (List.getElem?_mem ht)
  have hil : i ≤ key.length := le_trans e2 (walk_len_le key pt)
  refine ⟨i, by rw [g1, e1], hil, ?_, ?_⟩
  · intro hroot
    by_contra hi
    have hi0 : i = 0 := by omega
    subst hi0
    simp only [List.take_zero, lookup, follow, Option.map_some', Option.some.injEq] at e4
    rw [hroot] at e4
    exact e6 e4.symm
  · intro hroot
    by_contra hi
    have hil2 : i = key.length := by omega
    subst hil2
    simp only [List.drop_length, List.reverse_nil, lookup, follow, Option.map_some',
      Option.some.injEq] at e5
    rw [hroot] at e5
    exact e7 e5.symm

/-- C14, on the trie of `_tmain` (root value `EMPTY`) and the key `"enumfi"`. -/
theorem split_index_range_witness :
    (test_trie.value = EMPTY_VALUE ∧
      trie_find_splits (some test_trie) (some test_trie) (cstr "enumfi") = [1, 4, 16, 26]) ∧
    (test_trie.wf = true ∧ 0 ∉ cstr "enumfi" ∧
      ((0 : Nat) : Int) <
        (trie_find_splits (some test_trie) (some test_trie) (cstr "enumfi")).headD 0) ∧
    ∃ i : Nat,
      (trie_find_splits (some test_trie) (some test_trie) (cstr "enumfi"))[3 * 0 + 1]? =
        some (i : Int) ∧
      i ≤ (cstr "enumfi").length ∧
      (test_trie.value = EMPTY_VALUE → 1 ≤ i) ∧
      (test_trie.value = EMPTY_VALUE → i < (cstr "enumfi").length) :=
  ⟨by decide!, ⟨by decide!, by decide, by decide!⟩,
    split_index_range test_trie test_trie (by decide!) (by decide!) (cstr "enumfi")
      (by decide) 0 (by decide!)⟩

/-- C14 as stated fails when a root carries a value: with `empty_word_trie` (the empty
word has value 5, `"a"` has value 0) as prefix trie and as suffix trie, the key `"a"` of
length 1 gives the two triples `(0, 5, 0)` and `(1, 0, 5)`, whose split indices are `0`
and `length(key)`. -/
theorem split_index_range_counterexample :
    empty_word_trie.wf = true ∧ (cstr "a").length = 1 ∧
    trie_find_splits (some empty_word_trie) (some empty_word_trie) (cstr "a") =
      [2, 0, 5, 0, 1, 0, 5] ∧
    (trie_find_splits (some empty_word_trie) (some empty_word_trie) (cstr "a"))[3 * 0 + 1]? =
      some 0 ∧
    (trie_find_splits (some empty_word_trie) (some empty_word_trie) (cstr "a"))[3 * 1 + 1]? =
      some (((cstr "a").length : Nat) : Int) ∧
    trie_find_word (some empty_word_trie) [] = 5 ∧
    trie_find_word (some empty_word_trie) (cstr "a") = 0 := by
  decide!

theorem find_prefixes_loop_le (s : List Nat) :
    ∀ o : Option Node, (find_prefixes_loop o s).length ≤ s.length + 1 := by
  induction s with
  | nil =>
    intro o
    cases o <;> simp [find_prefixes_loop]
  | cons c cs ih =>
    intro o
    cases o with
    | none => simp [find_prefixes_loop]
    | some n =>
      simp only [find_prefixes_loop, List.length_cons]
      cases n.choices with
      | none => simp
      | some chs =>
        simp only
        cases strchr chs c with
        | none => simp
        | some b =>
          simp only [List.length_cons]
          have := ih (child_at n.children b)
          omega

theorem flat_length (ts : List (Int × Int × Int)) :
    (ts.flatMap (fun t => [t.1, t.2.1, t.2.2])).length = 3 * ts.length := by
  induction ts with
  | nil => rfl
  | cons x xs ih =>
    simp only [List.flatMap_cons, List.length_append, ih, List.length_cons, List.length_nil]
    omega

theorem int_index_some (a : List Int) (i : Int) (h0 : 0 ≤ i) (h1 : i < (a.length : Int)) :
    (int_index a i).isSome = true := by
  have hlt : i.toNat < a.length := by omega
  simp [int_index, h0, List.getElem?_eq_getElem hlt]

/-- C20. The split finder stays within bounds: with `p0`, `s0` the counts of the two
traces and `l` the length of the key, every loop index `pi` (`l - s0 + 1 ≤ pi < p0`)
reads `prefixes[pi + 1]` and `suffixes[l - pi + 1]` inside the traces
(`1 ≤ pi + 1 ≤ p0`, `1 ≤ (l - pi) + 1 ≤ s0`); the number of triples written does not
exceed the capacity `res_len = max(0, p0 - (l - s0 + 1))` of the result buffer, and the
array holds the count and three entries per triple; when no loop index qualifies, the
result is the count 0 alone. -/
theorem split_finder_in_bounds (prefix_root suffix_root : Option Node) (key : List Nat) :
    (∀ pi : Int,
      (key.length : Int) - (trie_find_prefixes suffix_root key.reverse).headD 0 + 1 ≤ pi →
      pi < (trie_find_prefixes prefix_root key).headD 0 →
      (1 ≤ pi + 1 ∧ pi + 1 ≤ (trie_find_prefixes prefix_root key).headD 0 ∧
        1 ≤ ((key.length : Int) - pi) + 1 ∧
        ((key.length : Int) - pi) + 1 ≤ (trie_find_prefixes suffix_root key.reverse).headD 0 ∧
        (int_index (trie_find_prefixes prefix_root key) (pi + 1)).isSome = true ∧
        (int_index (trie_find_prefixes suffix_root key.reverse)
          ((key.length : Int) - pi + 1)).isSome = true)) ∧
    (0 ≤ (trie_find_splits prefix_root suffix_root key).headD 0 ∧
      (trie_find_splits prefix_root suffix_root key).headD 0 ≤
        find_splits_res_len prefix_root suffix_root key) ∧
    (((trie_find_splits prefix_root suffix_root key).length : Int) =
      3 * (trie_find_splits prefix_root suffix_root key).headD 0 + 1) ∧
    ((∀ (pi p s : Int),
        int_index (trie_find_prefixes prefix_root key) (pi + 1) = some p →
        int_index (trie_find_prefixes suffix_root key.reverse)
          ((key.length : Int) - pi + 1) = some s → ¬ (p ≠ -1 ∧ s ≠ -1)) →
      trie_find_splits prefix_root suffix_root key = [0]) := by
  have hp := find_prefixes_loop_le key prefix_root
  have hs := find_prefixes_loop_le key.reverse suffix_root
  simp only [List.length_reverse] at hs
  refine ⟨?_, ⟨?_, ?_⟩, ?_, ?_⟩
  · intro pi h1 h2
    simp only [trie_find_prefixes, List.headD_cons] at h1 h2 ⊢
    refine ⟨by omega, by omega, by omega, by omega, ?_, ?_⟩
    · exact int_index_some _ _ (by omega) (by simp only [List.length_cons]; omega)
    · exact int_index_some _ _ (by omega) (by simp only [List.length_cons]; omega)
  · simp [trie_find_splits]
  · have hle : (find_splits_loop (trie_find_prefixes prefix_root key)
        (trie_find_prefixes suffix_root key.reverse) key.length
        ((trie_find_prefixes prefix_root key).headD 0)
        ((trie_find_prefixes suffix_root key.reverse).headD 0)).length ≤
        ((trie_find_prefixes prefix_root key).headD 0 -
          ((key.length : Int) - (trie_find_prefixes suffix_root key.reverse).headD 0 + 1)).toNat := by
      unfold find_splits_loop
      refine le_trans (List.length_filterMap_le _ _) ?_
      simp
    rw [splits_count]
    unfold find_splits_res_len
    simp only
    split <;> omega
  · simp only [trie_find_splits, List.headD_cons, List.length_cons, flat_length]
    push_cast
    omega
  · intro hno
    have hnil : find_splits_loop (trie_find_prefixes prefix_root key)
        (trie_find_prefixes suffix_root key.reverse) key.length
        ((trie_find_prefixes prefix_root key).headD 0)
        ((trie_find_prefixes suffix_root key.reverse).headD 0) = [] := by
      unfold find_splits_loop
      rw [List.filterMap_eq_nil_iff]
      intro j _
      simp only
      split
      · next p s hp1 hs1 =>
        have hs2 : int_index (trie_find_prefixes suffix_root key.reverse)
            ((key.length : Int) - ((key.length : Int) -
              (trie_find_prefixes suffix_root key.reverse).headD 0 + 1 + (j : Int)) + 1) =
            some s := hs1
        rw [if_neg (hno _ p s hp1 hs2)]
      · rfl
    simp only [trie_find_splits]
    rw [hnil]
    rfl

/-! ## Node well-formedness under insertion -/

theorem all_node_at (p : Node → Bool) (path : List Nat) :
    ∀ (t : Node), Node.all p t = true → ∀ n, node_at t path = some n → p n = true := by
  induction path with
  | nil =>
    intro t h n hn
    simp only [node_at, Option.some.injEq] at hn
    subst hn
    exact all_self p t h
  | cons i path ih =>
    intro t h n hn
    simp only [node_at] at hn
    cases hc : child_at t.children i with
    | none => rw [hc] at hn; simp at hn
    | some k =>
      rw [hc] at hn
      exact ih k (all_child p t h i k hc) n hn

theorem node_inv_ok (n : Node) (h : node_inv n = true) : node_ok n = true := by
  cases n with
  | mk v cs ks =>
    cases cs with
    | none => simp [node_ok, Node.choices]
    | some cs =>
      cases ks with
      | none => simp [node_inv, Node.choices, Node.children] at h
      | some ks =>
        simp only [node_inv, Node.choices, Node.children, Bool.and_eq_true,
          beq_iff_eq] at h
        simp [node_ok, Node.choices, Node.children, h.1.1]

theorem inv_wf (t : Node) (h : Node.all node_inv t = true) : t.wf = true :=
  all_imp node_inv node_ok node_inv_ok t h

theorem node_inv_set_child (n : Node) (h : node_inv n = true) (i : Nat) (k : Node) :
    node_inv (set_child n i k) = true := by
  cases n with
  | mk v cs ks =>
    cases ks with
    | none => simpa [set_child] using h
    | some ks =>
      cases cs with
      | none => simp [node_inv, Node.choices, Node.children] at h
      | some cs =>
        simpa [set_child, node_inv, Node.choices, Node.children] using h

/-- The labels after `_add_choice`: the old labels followed by the new one. -/
theorem add_choice_choices (t : Node) (c : Nat) :
    (_add_choice t c).1.choices = some (t.choices.getD [] ++ [c]) := by
  cases t with
  | mk v chs ks =>
    cases chs <;> simp [_add_choice, Node.choices]

/-- The children after `_add_choice` on a well-formed node: the old children keep their
positions. -/
theorem add_choice_child (t : Node) (h : node_inv t = true) (c : Nat) (j : Nat) (x : Node)
    (hx : child_at t.children j = some x) :
    child_at (_add_choice t c).1.children j = some x := by
  cases t with
  | mk v chs ks =>
    cases chs with
    | none =>
      cases ks with
      | none => simp [child_at, Node.children] at hx
      | some ks => simp [node_inv, Node.choices, Node.children] at h
    | some chs =>
      cases ks with
      | none => simp [child_at, Node.children] at hx
      | some ks =>
        simp only [node_inv, Node.choices, Node.children, Bool.and_eq_true,
          beq_iff_eq] at h
        simp only [child_at, Node.children] at hx
        have hlt : j < ks.length := (List.getElem?_eq_some.mp hx).1
        simp only [_add_choice, child_at, Node.children, h.1.1, List.take_length]
        rw [List.getElem?_append_left hlt]
        exact hx

theorem node_inv_add_choice (t : Node) (h : node_inv t = true) (c : Nat)
    (hc : ∀ cs, t.choices = some cs → c ∉ cs) : node_inv (_add_choice t c).1 = true := by
  cases t with
  | mk v chs ks =>
    cases chs with
    | none =>
      cases ks with
      | some ks => simp [node_inv, Node.choices, Node.children] at h
      | none => simp [_add_choice, node_inv, Node.choices, Node.children]
    | some chs =>
      cases ks with
      | none => simp [node_inv, Node.choices, Node.children] at h
      | some ks =>
        simp only [node_inv, Node.choices, Node.children, Bool.and_eq_true,
          beq_iff_eq, decide_eq_true_eq] at h
        have hnot : c ∉ chs := hc chs rfl
        simp only [_add_choice, node_inv, Node.choices, Node.children, Bool.and_eq_true,
          beq_iff_eq, decide_eq_true_eq]
        refine ⟨⟨by simp [h.1.1], ?_⟩, by simp⟩
        rw [List.nodup_append]
        refine ⟨h.1.2, List.nodup_singleton c, ?_⟩
        intro a ha hb
        simp only [List.mem_singleton] at hb
        subst hb
        exact hnot ha

theorem edge_none_not_mem (t : Node) (hwf : t.wf = true) (c : Nat) (he : t.edge c = none) :
    ∀ cs, t.choices = some cs → c ∉ cs := by
  intro cs hcs hm
  obtain ⟨k, hk⟩ := wf_edge_some t hwf cs hcs c hm
  rw [he] at hk
  simp at hk

/-- The invariant of the data model is kept by `trie_add_word`. -/
theorem inv_add_word (w : List Nat) (hw : 0 ∉ w) :
    ∀ t : Node, Node.all node_inv t = true →
      Node.all node_inv (trie_add_word t w).1 = true := by
  induction w with
  | nil => intro t h; simpa [trie_add_word] using h
  | cons c rest ih =>
    intro t h
    have hc : c ≠ 0 := fun e => hw (by simp [e])
    have hrest : 0 ∉ rest := fun e => hw (by simp [e])
    have hwf := inv_wf t h
    obtain ⟨n1, k, cs, _, _, _, hchild, _, _, _, hcase, heq⟩ :=
      add_word_cons t hwf c hc rest
    have hn1 : Node.all node_inv n1 = true := by
      rcases hcase with ⟨_, e⟩ | ⟨he, _, e⟩
      · rw [e]; exact h
      · rw [e]
        exact all_add_choice node_inv t c h
          (node_inv_add_choice t (all_self node_inv t h) c (edge_none_not_mem t hwf c he))
          (by decide)
    have hk : Node.all node_inv k = true := all_child node_inv n1 hn1 _ k hchild
    rw [heq]
    exact all_set_child node_inv n1 hn1 _ _ (ih hrest k hk)
      (node_inv_set_child n1 (all_self node_inv n1 hn1) _ _)

theorem inv_add_words (ws : List (List Nat)) (hws : ∀ w ∈ ws, 0 ∉ w) :
    ∀ t : Node, Node.all node_inv t = true → Node.all node_inv (add_words t ws) = true := by
  induction ws with
  | nil => intro t h; exact h
  | cons w ws ih =>
    intro t h
    simp only [add_words]
    exact ih (fun x hx => hws x (by simp [hx])) _ (inv_add_word w (hws w (by simp)) t h)

/-- Existing nodes keep their positions under `trie_add_word`, and their label strings
are only extended at the end. -/
theorem labels_kept (w : List Nat) (hw : 0 ∉ w) :
    ∀ t : Node, Node.all node_inv t = true → ∀ (p : List Nat) (n : Node),
      node_at t p = some n →
      ∃ n2, node_at (trie_add_word t w).1 p = some n2 ∧
        n.choices.getD [] <+: n2.choices.getD [] := by
  induction w with
  | nil =>
    intro t _ p n hn
    exact ⟨n, by simpa [trie_add_word] using hn, List.prefix_refl _⟩
  | cons c rest ih =>
    intro t h p n hn
    have hc : c ≠ 0 := fun e => hw (by simp [e])
    have hrest : 0 ∉ rest := fun e => hw (by simp [e])
    have hwf := inv_wf t h
    obtain ⟨n1, k, cs, _, hcs, _, hchild, _, _, _, hcase, heq⟩ :=
      add_word_cons t hwf c hc rest
    have hn1 : Node.all node_inv n1 = true := by
      rcases hcase with ⟨_, e⟩ | ⟨he, _, e⟩
      · rw [e]; exact h
      · rw [e]
        exact all_add_choice node_inv t c h
          (node_inv_add_choice t (all_self node_inv t h) c (edge_none_not_mem t hwf c he))
          (by decide)
    have hk : Node.all node_inv k = true := all_child node_inv n1 hn1 _ k hchild
    have hlabels : t.choices.getD [] <+: cs := by
      rcases hcase with ⟨_, e⟩ | ⟨_, _, e⟩
      · rw [e] at hcs
        rw [hcs]
        exact List.prefix_refl _
      · rw [e, add_choice_choices] at hcs
        simp only [Option.some.injEq] at hcs
        rw [← hcs]
        exact List.prefix_append _ _
    have hkeep : ∀ j x, child_at t.children j = some x → child_at n1.children j = some x := by
      intro j x hx
      rcases hcase with ⟨_, e⟩ | ⟨_, _, e⟩
      · rw [e]; exact hx
      · rw [e]; exact add_choice_child t (all_self node_inv t h) c j x hx
    rw [heq]
    simp only
    cases p with
    | nil =>
      simp only [node_at, Option.some.injEq] at hn
      subst hn
      refine ⟨_, rfl, ?_⟩
      rw [set_child_choices, hcs]
      exact hlabels
    | cons j p =>
      simp only [node_at] at hn ⊢
      cases hx : child_at t.children j with
      | none => rw [hx] at hn; simp at hn
      | some x =>
        rw [hx] at hn
        simp only at hn
        have hx1 := hkeep j x hx
        rw [child_at_set_child]
        by_cases hij : cs.indexOf c = j
        · subst hij
          rw [hchild] at hx1
          simp only [Option.some.injEq] at hx1
          subst hx1
          simp only [if_true, hchild, Option.map_some']
          exact ih hrest k hk p n hn
        · simp only [hij, if_false, hx1]
          exact ⟨n, hn, List.prefix_refl _⟩

theorem node_inv_unfold (n : Node) (h : node_inv n = true) :
    (n.choices = none → n.children = none) ∧
    (∀ cs, n.choices = some cs →
      ∃ ks, n.children = some ks ∧ ks.length = cs.length ∧ cs.Nodup ∧ cs ≠ []) := by
  cases n with
  | mk v cs ks =>
    cases cs with
    | none =>
      cases ks with
      | none => exact ⟨fun _ => rfl, fun cs hcs => by simp [Node.choices] at hcs⟩
      | some ks => simp [node_inv, Node.choices, Node.children] at h
    | some cs =>
      cases ks with
      | none => simp [node_inv, Node.choices, Node.children] at h
      | some ks =>
        simp only [node_inv, Node.choices, Node.children, Bool.and_eq_true,
          beq_iff_eq, decide_eq_true_eq, Bool.not_eq_true', List.isEmpty_eq_false] at h
        refine ⟨fun hn => by simp [Node.choices] at hn, fun cs2 hcs2 => ?_⟩
        simp only [Node.choices, Option.some.injEq] at hcs2
        subst hcs2
        exact ⟨ks, rfl, h.1.1.symm, h.1.2, h.2⟩

/-- C18. Node well-formedness is an invariant of insertion: in the empty trie and after
any sequence of `trie_add_word` calls, every reachable node either has label string and
child array both absent, or has a non-empty string of pairwise distinct labels and
exactly as many children as labels; and one more `trie_add_word` leaves every existing
node at its position, its old labels being an initial segment of its new labels (a new
label is appended after the existing ones). -/
theorem insertion_keeps_nodes_well_formed (ws : List (List Nat)) (hws : ∀ w ∈ ws, 0 ∉ w) :
    (∀ (p : List Nat) (n : Node), node_at (add_words _add_root_node ws) p = some n →
      (n.choices = none → n.children = none) ∧
      (∀ cs, n.choices = some cs →
        ∃ ks, n.children = some ks ∧ ks.length = cs.length ∧ cs.Nodup ∧ cs ≠ [])) ∧
    (∀ w : List Nat, 0 ∉ w → ∀ (p : List Nat) (n : Node),
      node_at (add_words _add_root_node ws) p = some n →
      ∃ n2, node_at (trie_add_word (add_words _add_root_node ws) w).1 p = some n2 ∧
        n.choices.getD [] <+: n2.choices.getD []) := by
  have hinv : Node.all node_inv (add_words _add_root_node ws) = true :=
    inv_add_words ws hws _ (by decide)
  refine ⟨fun p n hn => node_inv_unfold n (all_node_at node_inv p _ hinv n hn), ?_⟩
  intro w hw p n hn
  exact labels_kept w hw _ hinv p n hn

/-- C18, on the word list of `_tmain`: the trie it builds satisfies the invariant at every
node, its root has 17 labels, in the order of first insertion, and 17 children, and the theorem
applied to the list. -/
theorem insertion_keeps_nodes_well_formed_witness :
    (Node.all node_inv (add_words _add_root_node test_words) = true ∧
      Node.all node_inv test_trie = true ∧
      test_trie.choices = some (cstr "abcdefgilnprstvw2") ∧
      (test_trie.children.getD []).length = 17) ∧
    (∀ w ∈ test_words, 0 ∉ w) ∧
    ((∀ (p : List Nat) (n : Node), node_at (add_words _add_root_node test_words) p = some n →
      (n.choices = none → n.children = none) ∧
      (∀ cs, n.choices = some cs →
        ∃ ks, n.children = some ks ∧ ks.length = cs.length ∧ cs.Nodup ∧ cs ≠ [])) ∧
    (∀ w : List Nat, 0 ∉ w → ∀ (p : List Nat) (n : Node),
      node_at (add_words _add_root_node test_words) p = some n →
      ∃ n2, node_at (trie_add_word (add_words _add_root_node test_words) w).1 p = some n2 ∧
        n.choices.getD [] <+: n2.choices.getD [])) :=
  ⟨by decide!, by decide!, insertion_keeps_nodes_well_formed test_words (by decide!)⟩
